import Mathlib

/-!
The hangman engine of `web tp/main.go`.

A shallow embedding of the game-state transitions of the Go program
(`indexHandler`, `playHandler`, `hintHandler`, `updateDisplayWord` and the
helpers they call), followed by the properties established about them.

Modelling conventions.

* A Go `string` that the handlers inspect is a `GoString`: the list of its
  runes.  Every such string in the program is valid UTF-8 (the game state comes
  out of `json.Unmarshal`, the secret and the guess out of `strings.ToUpper`),
  so nothing is lost.  `len` is the number of bytes of the UTF-8 encoding
  (`byteLen`), and a `for i, c := range s` loop visits the pairs (byte offset,
  rune) of `rangeString s`.  The strings the handlers only store (`Username`,
  `Difficulty`, `Message`) are Lean strings.
* Go's `int` is the 64-bit two's-complement integer: `AttemptsLeft--` is
  `decr`, which wraps.
* A handler receives the state decoded from the cookie and stores the new
  state in the cookie.  An index out of range is a run-time panic: the handler
  stores nothing.  A handler therefore returns `Option Game`, `none` being the
  panic and `some g` the state in the cookie after the request.  A request on
  a finished round is redirected: the state in the cookie stays.
* The Unicode tables of the Go standard library are not part of the
  repository; what they say about non-ASCII runes is the parameter
  `UnicodeTables`.  On ASCII input the library functions are fixed by their
  documentation and are defined here.
* A catalog word enters the state through its byte length and its uppercased
  form only, a form value through its trimmed and uppercased form only.

The file has the definitions first (the embedding, then the notions used to
state the properties and the sample rounds), then the lemmas, then one section
per property, `C1` to `C10`.
-/

namespace Hangman

/-! ## Go strings -/

/-- A Go string holding valid UTF-8, as the list of its runes. -/
abbrev GoString := List Char

/-- What the standard library knows about non-ASCII runes: `letter r` is
`unicode.IsLetter(r)` for a rune `r` above ASCII, and `upper s` is
`strings.ToUpper(s)` for a string `s` that has a non-ASCII rune. -/
structure UnicodeTables where
  letter : Char → Bool
  upper : GoString → GoString

/-- Tables for evaluating the handlers on ASCII input, where the tables are
never consulted in a way that matters: no rune above ASCII is a letter and
strings with such a rune are left as they are. -/
def asciiTables : UnicodeTables :=
  { letter := fun _ => false, upper := fun s => s }

/-- The builtin `len(s)`: the number of bytes of `s`. -/
def byteLen (s : GoString) : Nat :=
  (s.map Char.utf8Size).sum

/-- The pairs visited by `for i, c := range s`, the first rune being at byte
offset `off`. -/
def rangeFrom (off : Nat) : GoString → List (Nat × Char)
  | [] => []
  | c :: cs => (off, c) :: rangeFrom (off + c.utf8Size) cs

/-- The pairs (byte offset, rune) visited by `for i, c := range s`. -/
def rangeString (s : GoString) : List (Nat × Char) :=
  rangeFrom 0 s

/-- The first byte of the UTF-8 encoding of a rune. -/
def firstByte (c : Char) : Nat :=
  let v := c.val.toNat
  if v < 0x80 then v
  else if v < 0x800 then 0xC0 + v / 0x40
  else if v < 0x10000 then 0xE0 + v / 0x1000
  else 0xF0 + v / 0x40000

/-- The function `unicode.IsLetter`: on ASCII the letters are `A`-`Z` and
`a`-`z`; above ASCII the table decides. -/
def unicodeIsLetter (U : UnicodeTables) (r : Char) : Bool :=
  if r.val.toNat < 0x80 then r.isAlpha else U.letter r

/-- The function `unicode.IsSpace`, as documented: the Latin-1 spaces and the
runes of the `White_Space` property. -/
def unicodeIsSpace (r : Char) : Bool :=
  let v := r.val.toNat
  (0x09 ≤ v && v ≤ 0x0D) || v == 0x20 || v == 0x85 || v == 0xA0 || v == 0x1680 ||
    (0x2000 ≤ v && v ≤ 0x200A) || v == 0x2028 || v == 0x2029 || v == 0x202F ||
    v == 0x205F || v == 0x3000

/-- The function `strings.TrimSpace`: drops the leading and the trailing white
space. -/
def stringsTrimSpace (s : GoString) : GoString :=
  (s.dropWhile unicodeIsSpace).rdropWhile unicodeIsSpace

/-- The function `strings.ToUpper`: an ASCII-only string has its letters
`a`-`z` mapped to `A`-`Z`; any other string is mapped by the table. -/
def stringsToUpper (U : UnicodeTables) (s : GoString) : GoString :=
  if s.all (fun c => decide (c.val.toNat < 0x80)) then s.map Char.toUpper else U.upper s

/-- The function `strings.Contains(s, substr)`: `substr` starts at some
position of `s`. -/
def stringsContains (s substr : GoString) : Bool :=
  s.tails.any (fun t => substr.isPrefixOf t)

/-- The function `strings.Repeat(s, count)`. -/
def stringsRepeat (s : GoString) (count : Nat) : GoString :=
  (List.replicate count s).flatten

/-- The function `strings.Split(s, sep)` for a separator `sep` of one rune: the
pieces of `s` between the occurrences of `sep`. -/
def stringsSplit (s : GoString) (sep : Char) : List GoString :=
  match s with
  | [] => [[]]
  | c :: cs =>
    if c = sep then [] :: stringsSplit cs sep
    else
      match stringsSplit cs sep with
      | [] => [[c]]
      | piece :: pieces => (c :: piece) :: pieces

/-- The function `strings.Split(s, "")`: one string per rune of `s`. -/
def stringsExplode (s : GoString) : List GoString :=
  s.map (fun c => [c])

/-- The function `strings.Join(elems, sep)`. -/
def stringsJoin : List GoString → GoString → GoString
  | [], _ => []
  | [e], _ => e
  | e :: e' :: rest, sep => e ++ sep ++ stringsJoin (e' :: rest) sep

/-! ## Machine integers -/

/-- The value of an integer as a 64-bit two's-complement `int`. -/
def wrapInt (x : Int) : Int :=
  (x + 2 ^ 63) % 2 ^ 64 - 2 ^ 63

/-- The statement `n--` on an `int`. -/
def decr (n : Int) : Int :=
  wrapInt (n - 1)

/-! ## The game state and the helpers of `main.go` -/

/-- The struct `Game`. -/
structure Game where
  Username : String
  Difficulty : String
  Word : GoString
  DisplayWord : GoString
  AttemptsLeft : Int
  TriedLetters : List GoString
  Message : String
  GameOver : Bool
  Won : Bool
  deriving DecidableEq, Repr

/-- The function `isLetter`: `len(s) == 1 && unicode.IsLetter(rune(s[0]))`. -/
def isLetter (U : UnicodeTables) (s : GoString) : Bool :=
  decide (byteLen s = 1) &&
    match s with
    | [] => false
    | c :: _ => unicodeIsLetter U (Char.ofNat (firstByte c))

/-- The function `isWord`: every rune of `s` is a letter. -/
def isWord (U : UnicodeTables) (s : GoString) : Bool :=
  s.all (unicodeIsLetter U)

/-- The function `contains`. -/
def contains : List GoString → GoString → Bool
  | [], _ => false
  | a :: rest, item => if a = item then true else contains rest item

/-- The loop of `updateDisplayWord` over the pairs of `range word`:
`updated[i] = string(c)` wherever `string(c) == guess`, a panic (`none`) when
`i` is not an index of `updated`. -/
def updateLoop (guess : GoString) : List (Nat × Char) → List GoString → Option (List GoString)
  | [], updated => some updated
  | (i, c) :: rest, updated =>
    if [c] = guess then
      if i < updated.length then updateLoop guess rest (updated.set i [c]) else none
    else updateLoop guess rest updated

/-- The function `updateDisplayWord`; `none` is the index-out-of-range panic. -/
def updateDisplayWord (word display guess : GoString) : Option GoString :=
  (updateLoop guess (rangeString word) (stringsSplit display ' ')).map
    (fun updated => stringsJoin updated [' '])

/-- The state that `indexHandler` stores for a valid form once
`getRandomWord` has returned `word`. -/
def indexHandler (U : UnicodeTables) (username difficulty : String) (word : GoString) : Game :=
  { Username := username
    Difficulty := difficulty
    Word := stringsToUpper U word
    DisplayWord := stringsRepeat ['_', ' '] (byteLen word)
    AttemptsLeft := 6
    TriedLetters := []
    Message := ""
    GameOver := false
    Won := false }

/-- The guess as `playHandler` reads it:
`strings.ToUpper(strings.TrimSpace(r.FormValue("guess")))`. -/
def normalize (U : UnicodeTables) (raw : GoString) : GoString :=
  stringsToUpper U (stringsTrimSpace raw)

/-- The end of both wrong-guess branches of `playHandler`: the round is lost
once `AttemptsLeft <= 0`. -/
def lossCheck (game : Game) : Game :=
  if game.AttemptsLeft ≤ 0 then { game with GameOver := true, Won := false } else game

/-- The win test `!strings.Contains(game.DisplayWord, "_")` of the letter
branch of `playHandler` and of `hintHandler`. -/
def winCheck (game : Game) : Game :=
  if !stringsContains game.DisplayWord ['_'] then { game with GameOver := true, Won := true }
  else game

/-- The handler `playHandler` on a POST request carrying the state `game` and
the form value `raw`.  A finished round is redirected and keeps its state. -/
def playHandler (U : UnicodeTables) (game : Game) (raw : GoString) : Option Game :=
  if game.GameOver then some game
  else
    let guess := normalize U raw
    if guess = [] then
      some { game with Message := "Veuillez entrer une lettre ou un mot." }
    else if byteLen guess = 1 ∧ isLetter U guess = true then
      if contains game.TriedLetters guess then
        some { game with Message := "Lettre déjà essayée." }
      else
        let tried := game.TriedLetters ++ [guess]
        if stringsContains game.Word guess then
          (updateDisplayWord game.Word game.DisplayWord guess).map fun display =>
            winCheck { game with
              TriedLetters := tried, Message := "Bonne lettre!", DisplayWord := display }
        else
          some (lossCheck { game with
            TriedLetters := tried, AttemptsLeft := decr game.AttemptsLeft,
            Message := "Mauvaise lettre!" })
    else if byteLen guess = byteLen game.Word ∧ isWord U guess = true then
      if guess = game.Word then
        some { game with
          DisplayWord := stringsJoin (stringsExplode game.Word) [' ']
          GameOver := true, Won := true }
      else
        some (lossCheck { game with
          AttemptsLeft := decr game.AttemptsLeft, Message := "Mot incorrect!" })
    else
      some { game with Message := "Entrée invalide." }

/-- The loop of `hintHandler` over the runes of `game.Word` still to visit: the
state after the loop and the flag `found`; `none` is a panic inside
`updateDisplayWord`. -/
def hintLoop (game : Game) : List Char → Option (Game × Bool)
  | [] => some (game, false)
  | c :: rest =>
    if (!stringsContains game.DisplayWord [c] && !contains game.TriedLetters [c]) = true then
      (updateDisplayWord game.Word game.DisplayWord [c]).map fun display =>
        ({ game with
            TriedLetters := game.TriedLetters ++ [[c]], DisplayWord := display,
            AttemptsLeft := decr game.AttemptsLeft, Message := "Indice utilisé!" }, true)
    else hintLoop game rest

/-- The handler `hintHandler` on a POST request carrying the state `game`.  A
finished round is redirected and keeps its state. -/
def hintHandler (game : Game) : Option Game :=
  if game.GameOver then some game
  else
    (hintLoop game game.Word).map fun r =>
      winCheck (if r.2 then r.1 else { r.1 with Message := "Aucune lettre à révéler." })

/-! ## The reveal as a function of the tried letters -/

/-- The slots of the reveal of `word` when the letters of `tried` are shown:
a rune of `k` bytes owns the slot at its byte offset, a letter if it is in
`tried` and a placeholder otherwise, followed by `k - 1` placeholders. -/
def slotsOf (tried : List GoString) : GoString → List GoString
  | [] => []
  | c :: cs =>
    (if contains tried [c] then [c] else ['_']) ::
      (List.replicate (c.utf8Size - 1) ['_'] ++ slotsOf tried cs)

/-- The reveal of `word` when the letters of `tried` are shown: the slots and
a last empty piece, joined by blanks. -/
def boardOf (tried : List GoString) (word : GoString) : GoString :=
  stringsJoin (slotsOf tried word ++ [[]]) [' ']

/-! ## Rounds -/

/-- A request of the player during a round: a guess posted to `/play` with its
form value, or a hint asked at `/hint`. -/
inductive Request where
  | guess (raw : GoString)
  | hint
  deriving DecidableEq, Repr

/-- The handler that serves a request. -/
def serve (U : UnicodeTables) (game : Game) : Request → Option Game
  | Request.guess raw => playHandler U game raw
  | Request.hint => hintHandler game

/-- The state stored after a sequence of requests, each served on the state
the previous one stored; `none` once a handler panics. -/
def run (U : UnicodeTables) (game : Game) : List Request → Option Game
  | [] => some game
  | r :: rs => (serve U game r).bind fun g => run U g rs

/-- The requests that post the given guesses. -/
def guesses (raws : List GoString) : List Request :=
  raws.map Request.guess

/-! ## Notions used to state the properties -/

/-- The first rune `hintHandler` accepts: it occurs nowhere in `DisplayWord`
and is not in `TriedLetters`. -/
def hintPick (game : Game) : Option Char :=
  game.Word.find? fun c =>
    !stringsContains game.DisplayWord [c] && !contains game.TriedLetters [c]

/-- The reveal slot with index `i`: the piece `strings.Split(display, " ")[i]`,
if there is one. -/
def slotAt (display : GoString) (i : Nat) : Option GoString :=
  (stringsSplit display ' ')[i]?

/-- The pairs (position, character) of a string, the first character having
the position `i`. -/
def positionsFrom (i : Nat) : GoString → List (Nat × Char)
  | [] => []
  | c :: cs => (i, c) :: positionsFrom (i + 1) cs

/-- The pairs (position, character) of a string: the reveal has one slot per
character of the secret, the slot of a character being the one at its
position. -/
def positions (s : GoString) : List (Nat × Char) :=
  positionsFrom 0 s

/-- The character a hint is to pick, in the words of the specification: the
first character of `Word`, in order, whose own reveal slot (the slot at its
position) still holds the placeholder and which is not in `TriedLetters`. -/
def specHintPick (game : Game) : Option Char :=
  ((positions game.Word).find? fun p =>
    decide (slotAt game.DisplayWord p.1 = some ['_']) && !contains game.TriedLetters [p.2]).map
    Prod.snd

/-- A wrong letter in the state `game`: the normalized guess is one character,
a letter, not yet tried and not in the secret. -/
def isWrongLetter (U : UnicodeTables) (game : Game) (raw : GoString) : Bool :=
  match normalize U raw with
  | [c] =>
    unicodeIsLetter U c && !contains game.TriedLetters [c] && !stringsContains game.Word [c]
  | _ => false

/-- A wrong word in the state `game`: the normalized guess has as many bytes as
the secret, is made of letters only and differs from the secret. -/
def isWrongWord (U : UnicodeTables) (game : Game) (raw : GoString) : Bool :=
  decide (byteLen (normalize U raw) = byteLen game.Word) && isWord U (normalize U raw) &&
    decide (normalize U raw ≠ game.Word)

/-- A wrong guess that costs an attempt: a wrong letter that is one byte long,
or a wrong word that is not one byte long. -/
def isWrongGuess (U : UnicodeTables) (game : Game) (raw : GoString) : Bool :=
  (isWrongLetter U game raw && decide (byteLen (normalize U raw) = 1)) ||
    (isWrongWord U game raw && decide (byteLen (normalize U raw) ≠ 1))

/-- Every guess of the sequence is a wrong guess in the state it is applied
to. -/
def allWrong (U : UnicodeTables) : Game → List GoString → Bool
  | _, [] => true
  | game, raw :: rest =>
    isWrongGuess U game raw &&
      match playHandler U game raw with
      | some g => allWrong U g rest
      | none => false

/-- Every guess of the sequence is a wrong letter in the state it is applied
to. -/
def allWrongLetters (U : UnicodeTables) : Game → List GoString → Bool
  | _, [] => true
  | game, raw :: rest =>
    isWrongLetter U game raw &&
      match playHandler U game raw with
      | some g => allWrongLetters U g rest
      | none => false

/-- A correct-letter guess for the secret: the normalized guess is one
character, a letter, and in the secret. -/
def isCorrectLetter (U : UnicodeTables) (secret raw : GoString) : Bool :=
  match normalize U raw with
  | [c] => unicodeIsLetter U c && stringsContains secret [c]
  | _ => false

/-! ## Invariants -/

/-- The invariant of a round on the secret `secret` whose reveal got one slot
per byte: the secret is kept, the stored reveal is the one that shows exactly
the tried letters (or, once the whole word was guessed, the spelled-out word),
the tried letters are distinct one-rune strings none of which is the blank,
and `AttemptsLeft` has lost at most one unit per tried letter, and less than
that while the round is open. -/
structure Inv (secret : GoString) (game : Game) : Prop where
  word : game.Word = secret
  nospace : [' '] ∉ game.TriedLetters
  board : game.DisplayWord = boardOf game.TriedLetters secret ∨
    (game.GameOver = true ∧ game.DisplayWord = stringsJoin (stringsExplode secret) [' '])
  single : ∀ t ∈ game.TriedLetters, ∃ c : Char, t = [c]
  nodup : game.TriedLetters.Nodup
  upper : game.AttemptsLeft ≤ 6
  lower : -(game.TriedLetters.length : Int) ≤ game.AttemptsLeft
  lowerOpen : game.GameOver = false → 1 - (game.TriedLetters.length : Int) ≤ game.AttemptsLeft

/-- The invariant of a round played with correct letters only: the round
invariant, the stored reveal shows exactly the tried letters, an open round
still has a placeholder, and a finished one is won and has none. -/
structure Solving (secret : GoString) (game : Game) : Prop where
  inv : Inv secret game
  board : game.DisplayWord = boardOf game.TriedLetters secret
  opened : game.GameOver = false → stringsContains game.DisplayWord ['_'] = true
  done : game.GameOver = true →
    game.Won = true ∧ stringsContains game.DisplayWord ['_'] = false

/-! ## Sample rounds -/

/-- The solved board of the word "AB" in an unfinished round. -/
def solvedBoard : Game :=
  { Username := "joueur", Difficulty := "facile", Word := "AB".toList,
    DisplayWord := "A B ".toList, AttemptsLeft := 6,
    TriedLetters := ["A".toList, "B".toList], Message := "Bonne lettre!",
    GameOver := false, Won := false }

/-- An unfinished round on "AB" whose stored reveal is empty. -/
def blankBoard : Game :=
  { Username := "joueur", Difficulty := "facile", Word := "AB".toList,
    DisplayWord := [], AttemptsLeft := 6,
    TriedLetters := [], Message := "",
    GameOver := false, Won := false }

/-- An unfinished round on the word "CHAT" with one attempt left and the reveal
still blank but for a wrong slot. -/
def lateRound : Game :=
  { Username := "joueur", Difficulty := "facile", Word := "CHAT".toList,
    DisplayWord := "_ H _ _ ".toList, AttemptsLeft := 1,
    TriedLetters := ["H".toList, "X".toList], Message := "Mauvaise lettre!",
    GameOver := false, Won := false }

/-- An unfinished round on the one-letter word "A" whose letter is already in
`TriedLetters`. -/
def triedRound : Game :=
  { Username := "joueur", Difficulty := "facile", Word := "A".toList,
    DisplayWord := "_ ".toList, AttemptsLeft := 6,
    TriedLetters := ["A".toList], Message := "",
    GameOver := false, Won := false }

/-- A round on "CHAT" after the correct guess "C". -/
def midRound : Game :=
  { Username := "joueur", Difficulty := "facile", Word := "CHAT".toList,
    DisplayWord := "C _ _ _ ".toList, AttemptsLeft := 6,
    TriedLetters := ["C".toList], Message := "Bonne lettre!",
    GameOver := false, Won := false }

/-- The round on the one-letter word "A" after the wrong guess "B". -/
def oneLetterRound : Game :=
  { Username := "joueur", Difficulty := "facile", Word := "A".toList,
    DisplayWord := "_ ".toList, AttemptsLeft := 5,
    TriedLetters := ["B".toList], Message := "Mauvaise lettre!",
    GameOver := false, Won := false }

/-- An unfinished round whose `AttemptsLeft` is the least 64-bit integer. -/
def leastRound : Game :=
  { Username := "joueur", Difficulty := "facile", Word := "CHAT".toList,
    DisplayWord := "_ _ _ _ ".toList, AttemptsLeft := -9223372036854775808,
    TriedLetters := [], Message := "",
    GameOver := false, Won := false }

/-- A round on "chat": the guess "c", a hint, the guess "c" again, a wrong
letter and a second hint. -/
def sampleRequests : List Request :=
  [Request.guess "c".toList, Request.hint, Request.guess "c".toList,
    Request.guess "z".toList, Request.hint]

/-- The state stored after `sampleRequests`. -/
def sampleRound : Game :=
  { Username := "joueur", Difficulty := "facile", Word := "CHAT".toList,
    DisplayWord := "C H A _ ".toList, AttemptsLeft := 3,
    TriedLetters := ["C".toList, "H".toList, "Z".toList, "A".toList],
    Message := "Indice utilisé!", GameOver := false, Won := false }

/-- The six wrong letters of the example on "BONJOUR". -/
def bonjourGuesses : List GoString :=
  ["X".toList, "Y".toList, "Z".toList, "Q".toList, "W".toList, "K".toList]

/-- The round on the one-letter word "a" after the guess "b" posted six
times. -/
def repeatedRound : Game :=
  { Username := "joueur", Difficulty := "facile", Word := "A".toList,
    DisplayWord := "_ ".toList, AttemptsLeft := 5,
    TriedLetters := ["B".toList], Message := "Lettre déjà essayée.",
    GameOver := false, Won := false }

/-- Tables that know the Latin-1 letters from U+00C0 to U+00FE: all but the two
signs U+00D7 and U+00F7 are letters, and the lowercase ones, from U+00E0 on,
have their uppercase form 32 code points below. -/
def latin1Tables : UnicodeTables :=
  { letter := fun c =>
      decide (0xC0 ≤ c.val.toNat ∧ c.val.toNat ≤ 0xFE ∧ c.val.toNat ≠ 0xD7 ∧ c.val.toNat ≠ 0xF7)
    upper := fun s => s.map fun c =>
      if 0xE0 ≤ c.val.toNat ∧ c.val.toNat ≤ 0xFE ∧ c.val.toNat ≠ 0xF7 then
        Char.ofNat (c.val.toNat - 32)
      else c.toUpper }

/-- Six distinct accented letters, none of them in "CHAT". -/
def accentedGuesses : List GoString :=
  ["é".toList, "è".toList, "à".toList, "ù".toList, "ê".toList, "ô".toList]

/-- The round on the word "chat" after a guess answered "Entrée invalide.". -/
def invalidRound : Game :=
  { Username := "joueur", Difficulty := "facile", Word := "CHAT".toList,
    DisplayWord := "_ _ _ _ ".toList, AttemptsLeft := 6,
    TriedLetters := [], Message := "Entrée invalide.",
    GameOver := false, Won := false }

/-- The round on the catalog word "a b" after a first hint. -/
def spacedRound : Game :=
  { Username := "joueur", Difficulty := "facile", Word := "A B".toList,
    DisplayWord := "A _ _ ".toList, AttemptsLeft := 5,
    TriedLetters := ["A".toList], Message := "Indice utilisé!",
    GameOver := false, Won := false }

/-- The round on the catalog word "a_b" after a first hint. -/
def underscoreRound : Game :=
  { Username := "joueur", Difficulty := "facile", Word := "A_B".toList,
    DisplayWord := "A _ _ ".toList, AttemptsLeft := 5,
    TriedLetters := ["A".toList], Message := "Indice utilisé!",
    GameOver := false, Won := false }

/-- Tables that know the letter U+0250 (two bytes) and its uppercase form
U+2C6F (three bytes). -/
def turnedTables : UnicodeTables :=
  { letter := fun c => c = 'ɐ' || c = 'Ɐ'
    upper := fun s => s.map fun c => if c = 'ɐ' then 'Ɐ' else c.toUpper }

/-- The round on the catalog word "ɐb", three bytes long, after a first hint:
the secret "ⱯB" is four bytes long and the offset of "B" is 3. -/
def turnedRound : Game :=
  { Username := "joueur", Difficulty := "facile", Word := "ⱯB".toList,
    DisplayWord := "Ɐ _ _ ".toList, AttemptsLeft := 5,
    TriedLetters := ["Ɐ".toList], Message := "Indice utilisé!",
    GameOver := false, Won := false }

/-- The round on the catalog word "éab" after the guess "a" and a hint: the
secret "ÉAB" has as many bytes as the word, and the slot at position 2, the
one of "B", shows "A". -/
def accentRound : Game :=
  { Username := "joueur", Difficulty := "facile", Word := "ÉAB".toList,
    DisplayWord := "É _ A _ ".toList, AttemptsLeft := 5,
    TriedLetters := ["A".toList, "É".toList], Message := "Indice utilisé!",
    GameOver := false, Won := false }

/-- Tables that know the dotless letter U+0131 (two bytes), whose uppercase
form is the ASCII letter "I". -/
def dotlessTables : UnicodeTables :=
  { letter := fun c => c = 'ı'
    upper := fun s => s.map fun c => if c = 'ı' then 'I' else c.toUpper }

/-- The round on the catalog word "ıl", three bytes long, after the guesses "i"
and "l": a third placeholder is left. -/
def dotlessRound : Game :=
  { Username := "joueur", Difficulty := "facile", Word := "IL".toList,
    DisplayWord := "I L _ ".toList, AttemptsLeft := 6,
    TriedLetters := ["I".toList, "L".toList], Message := "Bonne lettre!",
    GameOver := false, Won := false }

/-- The round on the catalog word "été" after the guesses "é" and "t": the
first is answered "Entrée invalide.", the second reveals "T". -/
def eteRound : Game :=
  { Username := "joueur", Difficulty := "facile", Word := "ÉTÉ".toList,
    DisplayWord := "_ _ T _ _ ".toList, AttemptsLeft := 6,
    TriedLetters := ["T".toList], Message := "Bonne lettre!",
    GameOver := false, Won := false }

/-! ## Lemmas -/

theorem decr_eq (a : Int) (hmin : -2 ^ 63 < a) (hmax : a < 2 ^ 63) : decr a = a - 1 := by
  unfold decr wrapInt
  norm_num at hmin hmax ⊢
  omega

theorem byteLen_eq_zero {s : GoString} (h : byteLen s = 0) : s = [] := by
  cases s with
  | nil => rfl
  | cons c cs =>
    have := Char.utf8Size_pos c
    simp [byteLen] at h
    omega

theorem byteLen_cons (c : Char) (s : GoString) : byteLen (c :: s) = c.utf8Size + byteLen s := by
  simp [byteLen]

theorem hintLoop_eq (game : Game) (rest : List Char) :
    hintLoop game rest =
      match rest.find? (fun c =>
          !stringsContains game.DisplayWord [c] && !contains game.TriedLetters [c]) with
      | none => some (game, false)
      | some c =>
        (updateDisplayWord game.Word game.DisplayWord [c]).map fun display =>
          ({ game with
              TriedLetters := game.TriedLetters ++ [[c]], DisplayWord := display,
              AttemptsLeft := decr game.AttemptsLeft, Message := "Indice utilisé!" }, true) := by
  induction rest with
  | nil => rfl
  | cons c rest ih =>
    by_cases h : (!stringsContains game.DisplayWord [c] && !contains game.TriedLetters [c]) = true
    · simp only [hintLoop, h, if_true, List.find?_cons_of_pos]
    · rw [hintLoop, if_neg h, ih]
      simp only [Bool.not_eq_true] at h
      rw [List.find?_cons_of_neg _ (by simp [h])]

theorem hintHandler_of_pick {game : Game} {c : Char} (hover : game.GameOver = false)
    (hp : hintPick game = some c) :
    hintHandler game =
      (updateDisplayWord game.Word game.DisplayWord [c]).map fun display =>
        winCheck { game with
          TriedLetters := game.TriedLetters ++ [[c]], DisplayWord := display,
          AttemptsLeft := decr game.AttemptsLeft, Message := "Indice utilisé!" } := by
  unfold hintPick at hp
  rw [hintHandler, hintLoop_eq, hp]
  simp only [hover, Bool.false_eq_true, if_false]
  cases updateDisplayWord game.Word game.DisplayWord [c] <;> simp

theorem hintHandler_of_no_pick {game : Game} (hover : game.GameOver = false)
    (hp : hintPick game = none) :
    hintHandler game = some (winCheck { game with Message := "Aucune lettre à révéler." }) := by
  unfold hintPick at hp
  rw [hintHandler, hintLoop_eq, hp]
  simp [hover]


theorem stringsSplit_ne_nil (s : GoString) (sep : Char) : stringsSplit s sep ≠ [] := by
  cases s with
  | nil => simp [stringsSplit]
  | cons c cs =>
    unfold stringsSplit
    split
    · simp
    · split <;> simp

theorem stringsSplit_of_not_mem {sep : Char} {x : GoString} (h : sep ∉ x) :
    stringsSplit x sep = [x] := by
  induction x with
  | nil => rfl
  | cons c x ih =>
    have hc : c ≠ sep := fun e => h (by simp [e])
    have hx : sep ∉ x := fun e => h (by simp [e])
    rw [stringsSplit, if_neg hc, ih hx]

theorem stringsSplit_append_sep {sep : Char} {x : GoString} (rest : GoString) (h : sep ∉ x) :
    stringsSplit (x ++ sep :: rest) sep = x :: stringsSplit rest sep := by
  induction x with
  | nil => simp [stringsSplit]
  | cons c x ih =>
    have hc : c ≠ sep := fun e => h (by simp [e])
    have hx : sep ∉ x := fun e => h (by simp [e])
    rw [List.cons_append, stringsSplit, if_neg hc, ih hx]

theorem stringsSplit_join {sep : Char} (xs : List GoString) (hne : xs ≠ [])
    (h : ∀ x ∈ xs, sep ∉ x) : stringsSplit (stringsJoin xs [sep]) sep = xs := by
  induction xs with
  | nil => exact absurd rfl hne
  | cons e rest ih =>
    cases rest with
    | nil => exact stringsSplit_of_not_mem (h e (by simp))
    | cons e' rest =>
      have h1 := ih (by simp) (fun x hx => h x (List.mem_cons_of_mem _ hx))
      rw [stringsJoin, List.append_assoc, List.singleton_append,
        stringsSplit_append_sep _ (h e (by simp)), h1]

theorem unicodeIsLetter_ne_space {U : UnicodeTables} {c : Char}
    (h : unicodeIsLetter U c = true) : c ≠ ' ' := by
  rintro rfl
  have h0 : unicodeIsLetter U ' ' = false := rfl
  rw [h0] at h
  exact Bool.noConfusion h

theorem not_mem_of_isWord {U : UnicodeTables} {s : GoString} (h : isWord U s = true) :
    ' ' ∉ s := by
  intro hmem
  have := (List.all_eq_true.mp h) ' ' hmem
  exact unicodeIsLetter_ne_space this rfl


theorem lossCheck_AttemptsLeft (game : Game) : (lossCheck game).AttemptsLeft = game.AttemptsLeft := by
  unfold lossCheck; split <;> rfl

theorem lossCheck_Message (game : Game) : (lossCheck game).Message = game.Message := by
  unfold lossCheck; split <;> rfl

theorem winCheck_AttemptsLeft (game : Game) : (winCheck game).AttemptsLeft = game.AttemptsLeft := by
  unfold winCheck; split <;> rfl

theorem winCheck_Message (game : Game) : (winCheck game).Message = game.Message := by
  unfold winCheck; split <;> rfl

theorem ne_nil_of_byteLen_one {s : GoString} (h : byteLen s = 1) : s ≠ [] := by
  intro e; rw [e] at h; simp [byteLen] at h

theorem playHandler_finished {U : UnicodeTables} {game : Game} (raw : GoString)
    (hover : game.GameOver = true) : playHandler U game raw = some game := by
  rw [playHandler, if_pos hover]

theorem playHandler_empty {U : UnicodeTables} {game : Game} {raw : GoString}
    (hover : game.GameOver = false) (h : normalize U raw = []) :
    playHandler U game raw =
      some { game with Message := "Veuillez entrer une lettre ou un mot." } := by
  rw [playHandler, if_neg (by simp [hover])]
  dsimp only
  rw [if_pos h]

theorem playHandler_tried {U : UnicodeTables} {game : Game} {raw : GoString}
    (hover : game.GameOver = false) (h1 : byteLen (normalize U raw) = 1)
    (hl : isLetter U (normalize U raw) = true)
    (ht : contains game.TriedLetters (normalize U raw) = true) :
    playHandler U game raw = some { game with Message := "Lettre déjà essayée." } := by
  rw [playHandler, if_neg (by simp [hover])]
  dsimp only
  rw [if_neg (ne_nil_of_byteLen_one h1), if_pos ⟨h1, hl⟩, if_pos ht]

theorem playHandler_correct_letter {U : UnicodeTables} {game : Game} {raw : GoString}
    (hover : game.GameOver = false) (h1 : byteLen (normalize U raw) = 1)
    (hl : isLetter U (normalize U raw) = true)
    (ht : contains game.TriedLetters (normalize U raw) = false)
    (hw : stringsContains game.Word (normalize U raw) = true) :
    playHandler U game raw =
      (updateDisplayWord game.Word game.DisplayWord (normalize U raw)).map fun display =>
        winCheck { game with
          TriedLetters := game.TriedLetters ++ [normalize U raw],
          Message := "Bonne lettre!", DisplayWord := display } := by
  rw [playHandler, if_neg (by simp [hover])]
  dsimp only
  rw [if_neg (ne_nil_of_byteLen_one h1), if_pos ⟨h1, hl⟩, if_neg (by simp [ht]), if_pos hw]

theorem playHandler_wrong_letter {U : UnicodeTables} {game : Game} {raw : GoString}
    (hover : game.GameOver = false) (h1 : byteLen (normalize U raw) = 1)
    (hl : isLetter U (normalize U raw) = true)
    (ht : contains game.TriedLetters (normalize U raw) = false)
    (hw : stringsContains game.Word (normalize U raw) = false) :
    playHandler U game raw =
      some (lossCheck { game with
        TriedLetters := game.TriedLetters ++ [normalize U raw],
        AttemptsLeft := decr game.AttemptsLeft, Message := "Mauvaise lettre!" }) := by
  rw [playHandler, if_neg (by simp [hover])]
  dsimp only
  rw [if_neg (ne_nil_of_byteLen_one h1), if_pos ⟨h1, hl⟩, if_neg (by simp [ht]),
    if_neg (by simp [hw])]

theorem playHandler_correct_word {U : UnicodeTables} {game : Game} {raw : GoString}
    (hover : game.GameOver = false)
    (h1 : ¬ (byteLen (normalize U raw) = 1 ∧ isLetter U (normalize U raw) = true))
    (hne : normalize U raw ≠ []) (hword : isWord U (normalize U raw) = true)
    (heq : normalize U raw = game.Word) :
    playHandler U game raw =
      some { game with
        DisplayWord := stringsJoin (stringsExplode game.Word) [' ']
        GameOver := true, Won := true } := by
  rw [playHandler, if_neg (by simp [hover])]
  dsimp only
  rw [if_neg hne, if_neg h1, if_pos ⟨by rw [heq], hword⟩, if_pos heq]

theorem playHandler_wrong_word {U : UnicodeTables} {game : Game} {raw : GoString}
    (hover : game.GameOver = false) (hlen : byteLen (normalize U raw) = byteLen game.Word)
    (h1 : ¬ (byteLen (normalize U raw) = 1 ∧ isLetter U (normalize U raw) = true))
    (hword : isWord U (normalize U raw) = true) (hneq : normalize U raw ≠ game.Word) :
    playHandler U game raw =
      some (lossCheck { game with
        AttemptsLeft := decr game.AttemptsLeft, Message := "Mot incorrect!" }) := by
  have hne : normalize U raw ≠ [] := by
    intro h
    rw [h] at hlen hneq
    exact hneq (byteLen_eq_zero hlen.symm).symm
  rw [playHandler, if_neg (by simp [hover])]
  dsimp only
  rw [if_neg hne, if_neg h1, if_pos ⟨hlen, hword⟩, if_neg hneq]

theorem playHandler_invalid {U : UnicodeTables} {game : Game} {raw : GoString}
    (hover : game.GameOver = false) (hne : normalize U raw ≠ [])
    (hl : ¬ (byteLen (normalize U raw) = 1 ∧ isLetter U (normalize U raw) = true))
    (hw : ¬ (byteLen (normalize U raw) = byteLen game.Word ∧ isWord U (normalize U raw) = true)) :
    playHandler U game raw = some { game with Message := "Entrée invalide." } := by
  rw [playHandler, if_neg (by simp [hover])]
  dsimp only
  rw [if_neg hne, if_neg hl, if_neg hw]

theorem contains_iff {l : List GoString} {x : GoString} : contains l x = true ↔ x ∈ l := by
  induction l with
  | nil => simp [contains]
  | cons a l ih =>
    unfold contains
    by_cases h : a = x
    · simp [h]
    · simp only [if_neg h, ih, List.mem_cons]
      constructor
      · exact Or.inr
      · rintro (e | e)
        · exact absurd e.symm h
        · exact e

theorem contains_eq_false_iff {l : List GoString} {x : GoString} :
    contains l x = false ↔ x ∉ l := by
  rw [← contains_iff, Bool.not_eq_true]

theorem contains_append_singleton (l : List GoString) (a x : GoString) :
    contains (l ++ [a]) x = (contains l x || decide (a = x)) := by
  rw [Bool.eq_iff_iff]
  simp only [contains_iff, Bool.or_eq_true, decide_eq_true_eq, List.mem_append,
    List.mem_singleton]
  constructor
  · rintro (h | h)
    · exact Or.inl h
    · exact Or.inr h.symm
  · rintro (h | h)
    · exact Or.inl h
    · exact Or.inr h.symm

theorem slotsOf_length (tried : List GoString) (word : GoString) :
    (slotsOf tried word).length = byteLen word := by
  induction word with
  | nil => rfl
  | cons c cs ih =>
    have := Char.utf8Size_pos c
    simp only [slotsOf, List.length_cons, List.length_append, List.length_replicate, ih,
      byteLen_cons]
    omega

theorem not_mem_slotsOf {tried : List GoString} (hsp : [' '] ∉ tried) (word : GoString) :
    ∀ x ∈ slotsOf tried word ++ [[]], ' ' ∉ x := by
  induction word with
  | nil => simp [slotsOf]
  | cons c cs ih =>
    intro x hx
    simp only [slotsOf, List.cons_append, List.mem_cons, List.append_assoc,
      List.mem_append] at hx
    rcases hx with hx | hx | hx
    · subst hx
      split
      · rename_i h
        rw [contains_iff] at h
        intro hm
        simp only [List.mem_singleton] at hm
        exact hsp (hm ▸ h)
      · decide
    · rw [List.eq_of_mem_replicate hx]; decide
    · exact ih x (by simp only [List.mem_append, List.mem_cons]; exact hx)

theorem stringsSplit_boardOf {tried : List GoString} (hsp : [' '] ∉ tried) (word : GoString) :
    stringsSplit (boardOf tried word) ' ' = slotsOf tried word ++ [[]] :=
  stringsSplit_join _ (by simp) (not_mem_slotsOf hsp word)

theorem updateLoop_slotsOf (tried : List GoString) (c : Char) (word : GoString) :
    ∀ (before after : List GoString),
      updateLoop [c] (rangeFrom before.length word) (before ++ slotsOf tried word ++ after) =
        some (before ++ slotsOf (tried ++ [[c]]) word ++ after) := by
  induction word with
  | nil => intro before after; rfl
  | cons c' cs ih =>
    intro before after
    have hpos := Char.utf8Size_pos c'
    have hlen : ∀ s : GoString,
        (before ++ (s :: List.replicate (c'.utf8Size - 1) ['_'])).length =
          before.length + c'.utf8Size := by
      intro s
      simp only [List.length_append, List.length_cons, List.length_replicate]
      omega
    have hshape : ∀ (s : GoString) (t : List GoString),
        before ++ (s :: (List.replicate (c'.utf8Size - 1) ['_'] ++ slotsOf t cs)) ++ after =
          (before ++ (s :: List.replicate (c'.utf8Size - 1) ['_'])) ++ slotsOf t cs ++ after := by
      intro s t
      simp only [List.append_assoc, List.cons_append]
    by_cases hc : c' = c
    · subst hc
      have hnew : contains (tried ++ [[c']]) [c'] = true := by
        rw [contains_append_singleton]; simp
      have hidx : before.length <
          (before ++ slotsOf tried (c' :: cs) ++ after).length := by
        simp only [slotsOf, List.length_append, List.length_cons]
        omega
      rw [rangeFrom, updateLoop, if_pos rfl, if_pos hidx]
      have hset : (before ++ slotsOf tried (c' :: cs) ++ after).set before.length [c'] =
          (before ++ ([c'] :: List.replicate (c'.utf8Size - 1) ['_'])) ++ slotsOf tried cs
            ++ after := by
        simp only [slotsOf, List.append_assoc, List.cons_append]
        rw [List.set_append_right _ _ (le_refl _)]
        simp
      rw [hset, ← hlen [c'], ih]
      simp only [slotsOf, hnew, if_true, List.append_assoc, List.cons_append]
    · have hne : ¬ ([c'] : GoString) = [c] := by simpa using hc
      have hsame : contains (tried ++ [[c]]) [c'] = contains tried [c'] := by
        rw [contains_append_singleton]
        have : decide (([c] : GoString) = [c']) = false := by
          simp only [decide_eq_false_iff_not]
          exact fun e => hne e.symm
        rw [this, Bool.or_false]
      rw [rangeFrom, updateLoop, if_neg hne]
      simp only [slotsOf]
      rw [hshape, ← hlen (if contains tried [c'] = true then [c'] else ['_']), ih, hsame, hshape]

theorem updateDisplayWord_boardOf {tried : List GoString} (hsp : [' '] ∉ tried)
    (word : GoString) (c : Char) :
    updateDisplayWord word (boardOf tried word) [c] = some (boardOf (tried ++ [[c]]) word) := by
  have h := updateLoop_slotsOf tried c word [] [[]]
  simp only [List.length_nil, List.nil_append] at h
  rw [updateDisplayWord, stringsSplit_boardOf hsp, rangeString, h]
  rfl

theorem slotsOf_nil (word : GoString) :
    slotsOf [] word = List.replicate (byteLen word) ['_'] := by
  induction word with
  | nil => rfl
  | cons c cs ih =>
    have hpos := Char.utf8Size_pos c
    have : byteLen (c :: cs) = (c.utf8Size - 1 + byteLen cs) + 1 := by
      rw [byteLen_cons]; omega
    rw [slotsOf, ih, this, List.replicate_succ, List.replicate_add]
    simp [contains]

theorem stringsRepeat_placeholder (n : Nat) :
    stringsRepeat ['_', ' '] n = stringsJoin (List.replicate n ['_'] ++ [[]]) [' '] := by
  induction n with
  | zero => rfl
  | succ n ih =>
    have h1 : stringsRepeat ['_', ' '] (n + 1) = '_' :: ' ' :: stringsRepeat ['_', ' '] n := by
      simp [stringsRepeat, List.replicate_succ]
    rw [h1, ih, List.replicate_succ, List.cons_append]
    cases n with
    | zero => rfl
    | succ m =>
      rw [List.replicate_succ, List.cons_append, stringsJoin]
      rfl

theorem indexHandler_DisplayWord (U : UnicodeTables) (username difficulty : String)
    (word : GoString) (hlen : byteLen (stringsToUpper U word) = byteLen word) :
    (indexHandler U username difficulty word).DisplayWord =
      boardOf [] (stringsToUpper U word) := by
  rw [boardOf, slotsOf_nil, hlen]
  exact stringsRepeat_placeholder _


theorem winCheck_cases (game : Game) :
    (stringsContains game.DisplayWord ['_'] = true ∧ winCheck game = game) ∨
      (stringsContains game.DisplayWord ['_'] = false ∧
        winCheck game = { game with GameOver := true, Won := true }) := by
  unfold winCheck
  split
  · rename_i h
    right
    exact ⟨by simpa using h, rfl⟩
  · rename_i h
    left
    exact ⟨by simpa using h, rfl⟩

theorem lossCheck_cases (game : Game) :
    (0 < game.AttemptsLeft ∧ lossCheck game = game) ∨
      (game.AttemptsLeft ≤ 0 ∧ lossCheck game = { game with GameOver := true, Won := false }) := by
  unfold lossCheck
  split
  · rename_i h
    exact Or.inr ⟨h, rfl⟩
  · rename_i h
    exact Or.inl ⟨not_le.mp h, rfl⟩

/-- The outcomes of `playHandler` on an unfinished round, `guess` being the
normalized form value. -/
theorem playHandler_cases (U : UnicodeTables) (game : Game) (raw : GoString)
    (hover : game.GameOver = false) :
    (∃ m, playHandler U game raw = some { game with Message := m }) ∨
    (byteLen (normalize U raw) = 1 ∧ isLetter U (normalize U raw) = true ∧
      contains game.TriedLetters (normalize U raw) = false ∧
      stringsContains game.Word (normalize U raw) = true ∧
      playHandler U game raw =
        (updateDisplayWord game.Word game.DisplayWord (normalize U raw)).map fun display =>
          winCheck { game with
            TriedLetters := game.TriedLetters ++ [normalize U raw],
            Message := "Bonne lettre!", DisplayWord := display }) ∨
    (byteLen (normalize U raw) = 1 ∧ isLetter U (normalize U raw) = true ∧
      contains game.TriedLetters (normalize U raw) = false ∧
      stringsContains game.Word (normalize U raw) = false ∧
      playHandler U game raw =
        some (lossCheck { game with
          TriedLetters := game.TriedLetters ++ [normalize U raw],
          AttemptsLeft := decr game.AttemptsLeft, Message := "Mauvaise lettre!" })) ∨
    (playHandler U game raw =
        some { game with
          DisplayWord := stringsJoin (stringsExplode game.Word) [' ']
          GameOver := true, Won := true }) ∨
    (playHandler U game raw =
        some (lossCheck { game with
          AttemptsLeft := decr game.AttemptsLeft, Message := "Mot incorrect!" })) := by
  by_cases hne : normalize U raw = []
  · exact Or.inl ⟨_, playHandler_empty hover hne⟩
  by_cases hl : byteLen (normalize U raw) = 1 ∧ isLetter U (normalize U raw) = true
  · obtain ⟨h1, hl⟩ := hl
    cases ht : contains game.TriedLetters (normalize U raw) with
    | true => exact Or.inl ⟨_, playHandler_tried hover h1 hl ht⟩
    | false =>
      cases hw : stringsContains game.Word (normalize U raw) with
      | true =>
        exact Or.inr (Or.inl ⟨h1, hl, rfl, rfl, playHandler_correct_letter hover h1 hl ht hw⟩)
      | false =>
        exact Or.inr (Or.inr (Or.inl
          ⟨h1, hl, rfl, rfl, playHandler_wrong_letter hover h1 hl ht hw⟩))
  by_cases hw : byteLen (normalize U raw) = byteLen game.Word ∧ isWord U (normalize U raw) = true
  · obtain ⟨hlen, hword⟩ := hw
    by_cases heq : normalize U raw = game.Word
    · exact Or.inr (Or.inr (Or.inr (Or.inl (playHandler_correct_word hover hl hne hword heq))))
    · exact Or.inr (Or.inr (Or.inr (Or.inr (playHandler_wrong_word hover hlen hl hword heq))))
  · exact Or.inl ⟨_, playHandler_invalid hover hne hl hw⟩


theorem stringsContains_singleton {s : GoString} {c : Char} :
    stringsContains s [c] = true ↔ c ∈ s := by
  unfold stringsContains
  induction s with
  | nil => simp [List.isPrefixOf]
  | cons a s ih =>
    rw [List.tails, List.any_cons, Bool.or_eq_true, ih]
    simp only [List.isPrefixOf, Bool.and_true, beq_iff_eq, List.mem_cons]

theorem stringsContains_singleton_false {s : GoString} {c : Char} :
    stringsContains s [c] = false ↔ c ∉ s := by
  rw [← stringsContains_singleton, Bool.not_eq_true]

theorem single_of_byteLen_one {s : GoString} (h : byteLen s = 1) :
    ∃ c, s = [c] ∧ c.utf8Size = 1 := by
  cases s with
  | nil => simp [byteLen] at h
  | cons c cs =>
    have hpos := Char.utf8Size_pos c
    rw [byteLen_cons] at h
    have hcs : byteLen cs = 0 := by omega
    rw [byteLen_eq_zero hcs]
    exact ⟨c, rfl, by omega⟩

theorem isLetter_ne_space {U : UnicodeTables} {c : Char} (h : isLetter U [c] = true) :
    c ≠ ' ' := by
  rintro rfl
  have h0 : isLetter U [' '] = false := rfl
  rw [h0] at h
  exact Bool.noConfusion h

theorem isLetter_ne_placeholder {U : UnicodeTables} {c : Char} (h : isLetter U [c] = true) :
    c ≠ '_' := by
  rintro rfl
  have h0 : isLetter U ['_'] = false := rfl
  rw [h0] at h
  exact Bool.noConfusion h

theorem mem_stringsJoin {c sep : Char} {xs : List GoString} (h : c ∈ stringsJoin xs [sep]) :
    c = sep ∨ ∃ x ∈ xs, c ∈ x := by
  induction xs with
  | nil => simp [stringsJoin] at h
  | cons e rest ih =>
    cases rest with
    | nil => exact Or.inr ⟨e, by simp, by simpa [stringsJoin] using h⟩
    | cons e' rest =>
      rw [stringsJoin] at h
      simp only [List.append_assoc, List.singleton_append, List.mem_append, List.mem_cons] at h
      rcases h with h | h | h
      · exact Or.inr ⟨e, by simp, h⟩
      · exact Or.inl h
      · rcases ih h with h' | ⟨x, hx, hc⟩
        · exact Or.inl h'
        · exact Or.inr ⟨x, List.mem_cons_of_mem _ hx, hc⟩

theorem mem_stringsJoin_of_mem {c : Char} {sep : GoString} {xs : List GoString} {x : GoString}
    (hx : x ∈ xs) (hc : c ∈ x) : c ∈ stringsJoin xs sep := by
  induction xs with
  | nil => simp at hx
  | cons e rest ih =>
    cases rest with
    | nil =>
      simp only [List.mem_singleton] at hx
      subst hx
      simpa [stringsJoin] using hc
    | cons e' rest =>
      rw [stringsJoin]
      simp only [List.mem_cons] at hx
      rcases hx with hx | hx
      · subst hx
        simp [hc]
      · exact List.mem_append_right _ (ih (by simpa using hx))

theorem sep_mem_stringsJoin {sep : Char} (e e' : GoString) (rest : List GoString) :
    sep ∈ stringsJoin (e :: e' :: rest) [sep] := by
  rw [stringsJoin]
  simp

theorem mem_slotsOf {tried : List GoString} {word x : GoString} (hx : x ∈ slotsOf tried word) :
    x = ['_'] ∨ ∃ c ∈ word, x = [c] ∧ contains tried [c] = true := by
  induction word with
  | nil => simp [slotsOf] at hx
  | cons c cs ih =>
    simp only [slotsOf, List.mem_cons, List.mem_append] at hx
    rcases hx with hx | hx | hx
    · by_cases hc : contains tried [c] = true
      · rw [if_pos hc] at hx
        exact Or.inr ⟨c, by simp, hx, hc⟩
      · rw [if_neg hc] at hx
        exact Or.inl hx
    · exact Or.inl (List.eq_of_mem_replicate hx)
    · rcases ih hx with h | ⟨c', hc', h⟩
      · exact Or.inl h
      · exact Or.inr ⟨c', List.mem_cons_of_mem _ hc', h⟩

/-- The runes of a reveal: the blank, the placeholder, and the tried letters
of the word. -/
theorem mem_boardOf {tried : List GoString} {word : GoString} {c : Char}
    (h : c ∈ boardOf tried word) :
    c = ' ' ∨ c = '_' ∨ (c ∈ word ∧ contains tried [c] = true) := by
  rcases mem_stringsJoin h with h | ⟨x, hx, hc⟩
  · exact Or.inl h
  · simp only [List.mem_append, List.mem_singleton] at hx
    rcases hx with hx | hx
    · rcases mem_slotsOf hx with h | ⟨c', hc', h, ht⟩
      · subst h
        simp only [List.mem_singleton] at hc
        exact Or.inr (Or.inl hc)
      · subst h
        simp only [List.mem_singleton] at hc
        subst hc
        exact Or.inr (Or.inr ⟨hc', ht⟩)
    · subst hx
      simp at hc

theorem space_mem_boardOf (tried : List GoString) {word : GoString} (h : word ≠ []) :
    ' ' ∈ boardOf tried word := by
  cases word with
  | nil => exact absurd rfl h
  | cons c cs =>
    unfold boardOf
    rw [slotsOf]
    cases hrest : List.replicate (c.utf8Size - 1) ['_'] ++ slotsOf tried cs ++ [[]] with
    | nil => simp at hrest
    | cons e' rest =>
      rw [List.cons_append, hrest]
      exact sep_mem_stringsJoin _ _ _

theorem slotsOf_append_of_not_mem {tried : List GoString} {word : GoString} {c : Char}
    (h : c ∉ word) : slotsOf (tried ++ [[c]]) word = slotsOf tried word := by
  induction word with
  | nil => rfl
  | cons c' cs ih =>
    have hc : c' ≠ c := fun e => h (by simp [e])
    have hcs : c ∉ cs := fun e => h (by simp [e])
    have hsame : contains (tried ++ [[c]]) [c'] = contains tried [c'] := by
      rw [contains_append_singleton]
      have : decide (([c] : GoString) = [c']) = false := by
        simp only [decide_eq_false_iff_not, List.cons.injEq, and_true]
        exact fun e => hc e.symm
      rw [this, Bool.or_false]
    rw [slotsOf, slotsOf, ih hcs, hsame]

/-- A duplicate-free list of one-rune strings is shorter than the number of
32-bit code points. -/
theorem tried_length_le {tried : List GoString} (hsingle : ∀ t ∈ tried, ∃ c : Char, t = [c])
    (hnodup : tried.Nodup) : tried.length ≤ 2 ^ 32 := by
  let code : GoString → Fin (2 ^ 32) := fun t =>
    match t with
    | [] => 0
    | c :: _ => ⟨c.val.toNat, c.val.toNat_lt⟩
  have hinj : ∀ a ∈ tried, ∀ b ∈ tried, code a = code b → a = b := by
    intro a ha b hb hab
    obtain ⟨ca, rfl⟩ := hsingle a ha
    obtain ⟨cb, rfl⟩ := hsingle b hb
    simp only [code, Fin.mk.injEq] at hab
    have : ca = cb := Char.ext (UInt32.toNat.inj hab)
    rw [this]
  have h := (List.Nodup.map_on hinj hnodup).length_le_card
  rw [List.length_map, Fintype.card_fin] at h
  exact h

theorem val_lt_of_utf8Size_one (c : Char) (h : c.utf8Size = 1) : c.val.toNat < 0x80 := by
  by_contra hn
  have h1 : ¬ c.val ≤ UInt32.ofNatCore 127 (by decide) := by
    rw [UInt32.le_def, BitVec.le_def]
    have e1 : c.val.toBitVec.toNat = c.val.toNat := rfl
    have e2 : (UInt32.ofNatCore 127 (by decide)).toBitVec.toNat = 127 := rfl
    rw [e1, e2]
    omega
  unfold Char.utf8Size at h
  simp only [] at h
  rw [if_neg h1] at h
  split at h
  · omega
  · split at h <;> omega

/-- On a string of one rune of one byte, `isLetter` is `unicode.IsLetter` of
the rune. -/
theorem isLetter_singleton (U : UnicodeTables) {c : Char} (h : c.utf8Size = 1) :
    isLetter U [c] = unicodeIsLetter U c := by
  have hlt := val_lt_of_utf8Size_one c h
  have hb : firstByte c = c.toNat := by
    unfold firstByte
    simp only []
    rw [if_pos hlt]
    rfl
  have h1 : byteLen [c] = 1 := by simp [byteLen, h]
  simp only [isLetter, h1, decide_True, Bool.true_and, hb, Char.ofNat_toNat]

theorem byteLen_singleton (c : Char) : byteLen [c] = c.utf8Size := by
  simp [byteLen]


theorem inv_indexHandler (U : UnicodeTables) (username difficulty : String) (word : GoString)
    (hlen : byteLen (stringsToUpper U word) = byteLen word) :
    Inv (stringsToUpper U word) (indexHandler U username difficulty word) where
  word := rfl
  nospace := by simp [indexHandler]
  board := Or.inl (indexHandler_DisplayWord U username difficulty word hlen)
  single := by simp [indexHandler]
  nodup := by simp [indexHandler]
  upper := by simp [indexHandler]
  lower := by simp [indexHandler]
  lowerOpen := by simp [indexHandler]

theorem Inv.board_of_open {secret : GoString} {game : Game} (h : Inv secret game)
    (hover : game.GameOver = false) : game.DisplayWord = boardOf game.TriedLetters secret := by
  rcases h.board with hb | ⟨hb, _⟩
  · exact hb
  · rw [hover] at hb; exact Bool.noConfusion hb

theorem Inv.decr_one {secret : GoString} {game : Game} (h : Inv secret game)
    (hover : game.GameOver = false) : decr game.AttemptsLeft = game.AttemptsLeft - 1 := by
  have h1 := h.lowerOpen hover
  have h2 := h.upper
  have h3 : (game.TriedLetters.length : Int) ≤ 2 ^ 32 := by
    exact_mod_cast tried_length_le h.single h.nodup
  apply decr_eq
  · norm_num at h3 ⊢; omega
  · norm_num; omega

theorem Inv.with_message {secret : GoString} {game : Game} (h : Inv secret game) (m : String) :
    Inv secret { game with Message := m } :=
  ⟨h.word, h.nospace, h.board, h.single, h.nodup, h.upper, h.lower, h.lowerOpen⟩

theorem Inv.after_winCheck {secret : GoString} {game : Game} (h : Inv secret game) :
    Inv secret (winCheck game) := by
  rcases winCheck_cases game with ⟨_, e⟩ | ⟨_, e⟩
  · rw [e]; exact h
  · rw [e]
    exact ⟨h.word, h.nospace, h.board.imp id (fun hb => ⟨rfl, hb.2⟩), h.single, h.nodup,
      h.upper, h.lower, fun hf => Bool.noConfusion hf⟩

theorem inv_lossCheck {secret : GoString} {game : Game} (hword : game.Word = secret)
    (hnospace : [' '] ∉ game.TriedLetters)
    (hboard : game.DisplayWord = boardOf game.TriedLetters secret)
    (hsingle : ∀ t ∈ game.TriedLetters, ∃ c : Char, t = [c])
    (hnodup : game.TriedLetters.Nodup) (hupper : game.AttemptsLeft ≤ 6)
    (hlower : -(game.TriedLetters.length : Int) ≤ game.AttemptsLeft) :
    Inv secret (lossCheck game) := by
  rcases lossCheck_cases game with ⟨hpos, e⟩ | ⟨_, e⟩
  · rw [e]
    exact ⟨hword, hnospace, Or.inl hboard, hsingle, hnodup, hupper, hlower, fun _ => by omega⟩
  · rw [e]
    exact ⟨hword, hnospace, Or.inl hboard, hsingle, hnodup, hupper, hlower,
      fun hf => Bool.noConfusion hf⟩

/-- The state obtained by revealing or merely trying a new one-rune letter
`c` that is not the blank keeps the invariant but for the attempts. -/
theorem Inv.tried_append {secret : GoString} {game : Game} (h : Inv secret game) {c : Char}
    (hc : c ≠ ' ') (hnew : contains game.TriedLetters [c] = false) :
    [' '] ∉ game.TriedLetters ++ [[c]] ∧
      (∀ t ∈ game.TriedLetters ++ [[c]], ∃ c : Char, t = [c]) ∧
      (game.TriedLetters ++ [[c]]).Nodup := by
  refine ⟨?_, ?_, ?_⟩
  · simp only [List.mem_append, List.mem_singleton, List.cons.injEq, and_true, not_or]
    exact ⟨h.nospace, fun e => hc e.symm⟩
  · intro t ht
    simp only [List.mem_append, List.mem_singleton] at ht
    rcases ht with ht | ht
    · exact h.single t ht
    · exact ⟨c, ht⟩
  · rw [List.nodup_append]
    refine ⟨h.nodup, List.nodup_singleton _, ?_⟩
    intro a ha hb
    simp only [List.mem_singleton] at hb
    subst hb
    exact (contains_eq_false_iff.mp hnew) ha

theorem inv_playHandler {U : UnicodeTables} {secret : GoString} {game g : Game} {raw : GoString}
    (h : Inv secret game) (hg : playHandler U game raw = some g) : Inv secret g := by
  cases hover : game.GameOver with
  | true =>
    rw [playHandler_finished raw hover] at hg
    exact Option.some.inj hg ▸ h
  | false =>
    have hb := h.board_of_open hover
    have hd := h.decr_one hover
    have hopen := h.lowerOpen hover
    rcases playHandler_cases U game raw hover with
      ⟨m, e⟩ | ⟨h1, hl, ht, hw, e⟩ | ⟨h1, hl, ht, hw, e⟩ | e | e
    · rw [e] at hg
      exact Option.some.inj hg ▸ h.with_message m
    · obtain ⟨c, hc, -⟩ := single_of_byteLen_one h1
      rw [hc] at hl ht hw e
      have hsp := isLetter_ne_space hl
      obtain ⟨a1, a2, a3⟩ := h.tried_append hsp ht
      have hu : updateDisplayWord game.Word game.DisplayWord [c] =
          some (boardOf (game.TriedLetters ++ [[c]]) secret) := by
        rw [h.word, hb]
        exact updateDisplayWord_boardOf h.nospace _ _
      rw [hu, Option.map_some'] at e
      rw [e] at hg
      refine Option.some.inj hg ▸ Inv.after_winCheck ⟨h.word, a1, Or.inl rfl, a2, a3, h.upper, ?_, ?_⟩
      · simp only [List.length_append, List.length_singleton, Nat.cast_add, Nat.cast_one]
        have := h.lower
        omega
      · intro _
        simp only [List.length_append, List.length_singleton, Nat.cast_add, Nat.cast_one]
        omega
    · obtain ⟨c, hc, -⟩ := single_of_byteLen_one h1
      rw [hc] at hl ht hw e
      have hsp := isLetter_ne_space hl
      obtain ⟨a1, a2, a3⟩ := h.tried_append hsp ht
      rw [h.word] at hw
      have hnot : c ∉ secret := stringsContains_singleton_false.mp hw
      rw [e] at hg
      refine Option.some.inj hg ▸ inv_lossCheck h.word a1 ?_ a2 a3 ?_ ?_
      · show game.DisplayWord = boardOf (game.TriedLetters ++ [[c]]) secret
        rw [boardOf, slotsOf_append_of_not_mem hnot]
        exact hb
      · show decr game.AttemptsLeft ≤ 6
        have := h.upper
        omega
      · show -(((game.TriedLetters ++ [[c]]).length : Nat) : Int) ≤ decr game.AttemptsLeft
        simp only [List.length_append, List.length_singleton, Nat.cast_add, Nat.cast_one]
        omega
    · rw [e] at hg
      exact Option.some.inj hg ▸
        ⟨h.word, h.nospace, Or.inr ⟨rfl, by rw [h.word]⟩, h.single, h.nodup, h.upper, h.lower,
          fun hf => Bool.noConfusion hf⟩
    · rw [e] at hg
      refine Option.some.inj hg ▸ inv_lossCheck h.word h.nospace hb h.single h.nodup ?_ ?_
      · show decr game.AttemptsLeft ≤ 6
        have := h.upper
        omega
      · show -((game.TriedLetters.length : Nat) : Int) ≤ decr game.AttemptsLeft
        omega


theorem hintPick_some {game : Game} {c : Char} (h : hintPick game = some c) :
    c ∈ game.Word ∧ stringsContains game.DisplayWord [c] = false ∧
      contains game.TriedLetters [c] = false := by
  unfold hintPick at h
  have h1 := List.mem_of_find?_eq_some h
  have h2 := List.find?_some h
  simp only [Bool.and_eq_true, Bool.not_eq_true'] at h2
  exact ⟨h1, h2.1, h2.2⟩

theorem hintHandler_finished {game : Game} (hover : game.GameOver = true) :
    hintHandler game = some game := by
  rw [hintHandler, if_pos hover]

/-- What a hint that finds the rune `c` stores in a round that satisfies the
invariant. -/
theorem Inv.hint_pick {secret : GoString} {game : Game} (h : Inv secret game)
    (hover : game.GameOver = false) {c : Char} (hp : hintPick game = some c) :
    c ≠ ' ' ∧
      hintHandler game =
        some (winCheck { game with
          TriedLetters := game.TriedLetters ++ [[c]],
          DisplayWord := boardOf (game.TriedLetters ++ [[c]]) secret,
          AttemptsLeft := game.AttemptsLeft - 1, Message := "Indice utilisé!" }) := by
  obtain ⟨hmem, hshown, _⟩ := hintPick_some hp
  have hb := h.board_of_open hover
  have hsp : c ≠ ' ' := by
    rintro rfl
    rw [stringsContains_singleton_false, hb] at hshown
    rw [h.word] at hmem
    exact hshown (space_mem_boardOf _ (List.ne_nil_of_mem hmem))
  have hu : updateDisplayWord game.Word game.DisplayWord [c] =
      some (boardOf (game.TriedLetters ++ [[c]]) secret) := by
    rw [h.word, hb]
    exact updateDisplayWord_boardOf h.nospace _ _
  refine ⟨hsp, ?_⟩
  rw [hintHandler_of_pick hover hp, hu, Option.map_some', h.decr_one hover]

theorem inv_hintHandler {secret : GoString} {game g : Game}
    (h : Inv secret game) (hg : hintHandler game = some g) : Inv secret g := by
  cases hover : game.GameOver with
  | true =>
    rw [hintHandler_finished hover] at hg
    exact Option.some.inj hg ▸ h
  | false =>
    cases hp : hintPick game with
    | none =>
      rw [hintHandler_of_no_pick hover hp] at hg
      exact Option.some.inj hg ▸ (h.with_message _).after_winCheck
    | some c =>
      obtain ⟨hsp, e⟩ := h.hint_pick hover hp
      obtain ⟨_, _, ht⟩ := hintPick_some hp
      obtain ⟨a1, a2, a3⟩ := h.tried_append hsp ht
      have hopen := h.lowerOpen hover
      have hup := h.upper
      rw [e] at hg
      refine Option.some.inj hg ▸ Inv.after_winCheck ⟨h.word, a1, Or.inl rfl, a2, a3, ?_, ?_, ?_⟩
      · show game.AttemptsLeft - 1 ≤ 6
        omega
      · show -(((game.TriedLetters ++ [[c]]).length : Nat) : Int) ≤ game.AttemptsLeft - 1
        simp only [List.length_append, List.length_singleton, Nat.cast_add, Nat.cast_one]
        omega
      · intro _
        show 1 - (((game.TriedLetters ++ [[c]]).length : Nat) : Int) ≤ game.AttemptsLeft - 1
        simp only [List.length_append, List.length_singleton, Nat.cast_add, Nat.cast_one]
        omega

theorem inv_serve {U : UnicodeTables} {secret : GoString} {game g : Game} {r : Request}
    (h : Inv secret game) (hg : serve U game r = some g) : Inv secret g := by
  cases r with
  | guess raw => exact inv_playHandler h hg
  | hint => exact inv_hintHandler h hg

theorem inv_run {U : UnicodeTables} {secret : GoString} (requests : List Request) :
    ∀ {game g : Game}, Inv secret game → run U game requests = some g → Inv secret g := by
  induction requests with
  | nil =>
    intro game g h hg
    exact Option.some.inj hg ▸ h
  | cons r rs ih =>
    intro game g h hg
    rw [run] at hg
    cases hs : serve U game r with
    | none => rw [hs] at hg; exact Option.noConfusion hg
    | some g1 =>
      rw [hs] at hg
      exact ih (inv_serve h hs) hg


theorem winCheck_TriedLetters (game : Game) :
    (winCheck game).TriedLetters = game.TriedLetters := by
  unfold winCheck; split <;> rfl

theorem lossCheck_TriedLetters (game : Game) :
    (lossCheck game).TriedLetters = game.TriedLetters := by
  unfold lossCheck; split <;> rfl

theorem nodup_append_new {tried : List GoString} {s : GoString} (h : tried.Nodup)
    (hnew : contains tried s = false) : (tried ++ [s]).Nodup := by
  rw [List.nodup_append]
  refine ⟨h, List.nodup_singleton _, ?_⟩
  intro a ha hb
  simp only [List.mem_singleton] at hb
  subst hb
  exact (contains_eq_false_iff.mp hnew) ha

theorem nodup_playHandler {U : UnicodeTables} {game g : Game} {raw : GoString}
    (h : game.TriedLetters.Nodup) (hg : playHandler U game raw = some g) :
    g.TriedLetters.Nodup := by
  cases hover : game.GameOver with
  | true =>
    rw [playHandler_finished raw hover] at hg
    exact Option.some.inj hg ▸ h
  | false =>
    rcases playHandler_cases U game raw hover with
      ⟨m, e⟩ | ⟨_, _, ht, _, e⟩ | ⟨_, _, ht, _, e⟩ | e | e
    · rw [e] at hg
      exact Option.some.inj hg ▸ h
    · rw [e] at hg
      cases hu : updateDisplayWord game.Word game.DisplayWord (normalize U raw) with
      | none => rw [hu] at hg; exact Option.noConfusion hg
      | some d =>
        rw [hu, Option.map_some'] at hg
        rw [← Option.some.inj hg, winCheck_TriedLetters]
        exact nodup_append_new h ht
    · rw [e] at hg
      rw [← Option.some.inj hg, lossCheck_TriedLetters]
      exact nodup_append_new h ht
    · rw [e] at hg
      exact Option.some.inj hg ▸ h
    · rw [e] at hg
      rw [← Option.some.inj hg, lossCheck_TriedLetters]
      exact h

theorem nodup_hintHandler {game g : Game}
    (h : game.TriedLetters.Nodup) (hg : hintHandler game = some g) :
    g.TriedLetters.Nodup := by
  cases hover : game.GameOver with
  | true =>
    rw [hintHandler_finished hover] at hg
    exact Option.some.inj hg ▸ h
  | false =>
    cases hp : hintPick game with
    | none =>
      rw [hintHandler_of_no_pick hover hp] at hg
      rw [← Option.some.inj hg, winCheck_TriedLetters]
      exact h
    | some c =>
      rw [hintHandler_of_pick hover hp] at hg
      cases hu : updateDisplayWord game.Word game.DisplayWord [c] with
      | none => rw [hu] at hg; exact Option.noConfusion hg
      | some d =>
        rw [hu, Option.map_some'] at hg
        rw [← Option.some.inj hg, winCheck_TriedLetters]
        exact nodup_append_new h (hintPick_some hp).2.2

theorem nodup_run {U : UnicodeTables} (requests : List Request) :
    ∀ {game g : Game}, game.TriedLetters.Nodup → run U game requests = some g →
      g.TriedLetters.Nodup := by
  induction requests with
  | nil =>
    intro game g h hg
    exact Option.some.inj hg ▸ h
  | cons r rs ih =>
    intro game g h hg
    rw [run] at hg
    cases hs : serve U game r with
    | none => rw [hs] at hg; exact Option.noConfusion hg
    | some g1 =>
      rw [hs] at hg
      cases r with
      | guess raw => exact ih (nodup_playHandler h hs) hg
      | hint => exact ih (nodup_hintHandler h hs) hg

theorem slots_boardOf_length {tried : List GoString} (hsp : [' '] ∉ tried) (word : GoString) :
    (stringsSplit (boardOf tried word) ' ').length = byteLen word + 1 := by
  rw [stringsSplit_boardOf hsp, List.length_append, slotsOf_length]
  rfl

/-- What revealing the rune `c`, not the blank and not yet tried, does to the
reveal of an open round that satisfies the invariant. -/
theorem Inv.reveal {secret : GoString} {game : Game} (h : Inv secret game)
    (hover : game.GameOver = false) {c : Char} (hc : c ≠ ' ')
    (hnew : contains game.TriedLetters [c] = false) :
    ∃ display, updateDisplayWord game.Word game.DisplayWord [c] = some display ∧
      (stringsSplit display ' ').length = (stringsSplit game.DisplayWord ' ').length := by
  have hb := h.board_of_open hover
  refine ⟨boardOf (game.TriedLetters ++ [[c]]) secret, ?_, ?_⟩
  · rw [h.word, hb]
    exact updateDisplayWord_boardOf h.nospace _ _
  · rw [hb, slots_boardOf_length (h.tried_append hc hnew).1, slots_boardOf_length h.nospace]

theorem playHandler_of_wrong {U : UnicodeTables} {game : Game} {raw : GoString}
    (hover : game.GameOver = false) (hw : isWrongGuess U game raw = true) :
    ∃ tried m, playHandler U game raw =
      some (lossCheck { game with
        TriedLetters := tried, AttemptsLeft := decr game.AttemptsLeft, Message := m }) := by
  unfold isWrongGuess at hw
  simp only [Bool.or_eq_true, Bool.and_eq_true, decide_eq_true_eq] at hw
  rcases hw with ⟨hletter, h1⟩ | ⟨hword, h1⟩
  · obtain ⟨c, hc, hsize⟩ := single_of_byteLen_one h1
    unfold isWrongLetter at hletter
    rw [hc] at hletter
    have hletter' : (unicodeIsLetter U c && !contains game.TriedLetters [c] &&
        !stringsContains game.Word [c]) = true := hletter
    simp only [Bool.and_eq_true, Bool.not_eq_true'] at hletter'
    obtain ⟨⟨hl, ht⟩, hw⟩ := hletter'
    rw [← isLetter_singleton U hsize, ← hc] at hl
    rw [← hc] at ht hw
    exact ⟨_, _, playHandler_wrong_letter hover h1 hl ht hw⟩
  · unfold isWrongWord at hword
    simp only [Bool.and_eq_true, decide_eq_true_eq] at hword
    obtain ⟨⟨hlen, hletters⟩, hne⟩ := hword
    exact ⟨_, _, playHandler_wrong_word hover hlen (fun h => h1 h.1) hletters hne⟩

/-- From an open round with `AttemptsLeft = a`, wrong guesses, no more than `a`
of them, only lower `AttemptsLeft`, one unit each; the round ends, lost, with
the guess that exhausts the attempts. -/
theorem run_allWrong {U : UnicodeTables} (raws : List GoString) :
    ∀ (game : Game) (a : Nat), game.GameOver = false → game.Won = false →
      game.AttemptsLeft = (a : Int) → a ≤ 6 → raws.length ≤ a → allWrong U game raws = true →
      ∃ g, run U game (guesses raws) = some g ∧ g.AttemptsLeft = (a : Int) - raws.length ∧
        g.DisplayWord = game.DisplayWord ∧ g.Won = false ∧
        g.GameOver = decide (0 < raws.length ∧ raws.length = a) := by
  induction raws with
  | nil =>
    intro game a hover hwon ha _ _ _
    exact ⟨game, rfl, by simp [ha], rfl, hwon, by simp [hover]⟩
  | cons raw rest ih =>
    intro game a hover hwon ha ha6 hlen hall
    simp only [List.length_cons] at hlen
    rw [allWrong, Bool.and_eq_true] at hall
    obtain ⟨hw, hrest⟩ := hall
    obtain ⟨tried, m, e⟩ := playHandler_of_wrong hover hw
    have hd : decr game.AttemptsLeft = ((a - 1 : Nat) : Int) := by
      rw [decr_eq _ (by rw [ha]; norm_num; omega) (by rw [ha]; norm_num; omega), ha]
      omega
    rw [e] at hrest
    simp only at hrest
    rw [guesses, List.map_cons, run, serve, e, Option.some_bind]
    change ∃ g, run U _ (guesses rest) = some g ∧ _
    rcases lossCheck_cases { game with
        TriedLetters := tried, AttemptsLeft := decr game.AttemptsLeft, Message := m }
      with ⟨hpos, e2⟩ | ⟨hnonpos, e2⟩
    · rw [e2] at hrest ⊢
      simp only at hpos
      rw [hd] at hpos
      obtain ⟨g, hg, h1, h2, h3, h4⟩ :=
        ih { game with
            TriedLetters := tried, AttemptsLeft := decr game.AttemptsLeft, Message := m }
          (a - 1) hover hwon hd (by omega) (by omega) hrest
      refine ⟨g, hg, ?_, h2, h3, ?_⟩
      · rw [h1]; simp only [List.length_cons, Nat.cast_add, Nat.cast_one]; omega
      · rw [h4]
        simp only [List.length_cons, decide_eq_decide]
        omega
    · rw [e2] at hrest ⊢
      simp only at hnonpos
      rw [hd] at hnonpos
      have ha1 : a = 1 := by omega
      have hnil : rest = [] := List.eq_nil_of_length_eq_zero (by omega)
      subst hnil
      refine ⟨_, rfl, ?_, rfl, rfl, ?_⟩
      · show decr game.AttemptsLeft = _
        rw [hd, ha1]; simp
      · simp [ha1]

theorem allWrong_take {U : UnicodeTables} (raws : List GoString) :
    ∀ (game : Game) (k : Nat), allWrong U game raws = true →
      allWrong U game (raws.take k) = true := by
  induction raws with
  | nil => intro game k h; simpa using h
  | cons raw rest ih =>
    intro game k h
    cases k with
    | zero => rfl
    | succ k =>
      rw [allWrong, Bool.and_eq_true] at h
      rw [List.take_succ_cons, allWrong, Bool.and_eq_true]
      refine ⟨h.1, ?_⟩
      cases hp : playHandler U game raw with
      | none => rw [hp] at h; exact absurd h.2 (by simp)
      | some g =>
        rw [hp] at h
        exact ih g k h.2

theorem mem_of_mem_rangeFrom {word : GoString} :
    ∀ {off : Nat} {p : Nat × Char}, p ∈ rangeFrom off word → p.2 ∈ word := by
  induction word with
  | nil => intro off p h; simp [rangeFrom] at h
  | cons c cs ih =>
    intro off p h
    rw [rangeFrom, List.mem_cons] at h
    rcases h with h | h
    · rw [h]; simp
    · exact List.mem_cons_of_mem _ (ih h)

theorem find_congr {α : Type} {f g : α → Bool} {l : List α} (h : ∀ x ∈ l, f x = g x) :
    l.find? f = l.find? g := by
  induction l with
  | nil => rfl
  | cons a l ih =>
    have ha := h a (by simp)
    have hl := ih (fun x hx => h x (List.mem_cons_of_mem _ hx))
    simp only [List.find?_cons, ha, hl]

theorem find_rangeFrom (f : Char → Bool) (word : GoString) :
    ∀ off : Nat, ((rangeFrom off word).find? fun p => f p.2).map Prod.snd = word.find? f := by
  induction word with
  | nil => intro off; rfl
  | cons c cs ih =>
    intro off
    rw [rangeFrom, List.find?_cons, List.find?_cons]
    cases hf : f c with
    | true => rfl
    | false => exact ih _

/-- The slot at the byte offset of a rune of the word: the rune if it is
tried, the placeholder otherwise. -/
theorem slot_of_rune (tried : List GoString) (word : GoString) :
    ∀ (before after : List GoString) (p : Nat × Char), p ∈ rangeFrom before.length word →
      (before ++ slotsOf tried word ++ after)[p.1]? =
        some (if contains tried [p.2] = true then [p.2] else ['_']) := by
  induction word with
  | nil => intro before after p h; simp [rangeFrom] at h
  | cons c cs ih =>
    intro before after p h
    have hpos := Char.utf8Size_pos c
    rw [rangeFrom, List.mem_cons] at h
    rcases h with h | h
    · rw [h]
      simp only [slotsOf, List.append_assoc, List.cons_append]
      rw [List.getElem?_append_right (le_refl _)]
      simp
    · have hlen : (before ++
          ((if contains tried [c] = true then [c] else ['_']) ::
            List.replicate (c.utf8Size - 1) ['_'])).length = before.length + c.utf8Size := by
        simp only [List.length_append, List.length_cons, List.length_replicate]
        omega
      rw [← hlen] at h
      have := ih _ after p h
      rw [← this]
      simp only [slotsOf, List.append_assoc, List.cons_append]

theorem slotAt_boardOf {tried : List GoString} (hsp : [' '] ∉ tried) {word : GoString}
    {p : Nat × Char} (hp : p ∈ rangeString word) :
    slotAt (boardOf tried word) p.1 =
      some (if contains tried [p.2] = true then [p.2] else ['_']) := by
  rw [slotAt, stringsSplit_boardOf hsp]
  have := slot_of_rune tried word [] [[]] p hp
  simpa using this

/-- In a string of one-byte characters the byte offset of a character is its
position. -/
theorem rangeFrom_eq_positionsFrom {s : GoString} (hbytes : ∀ c ∈ s, c.utf8Size = 1) :
    ∀ off : Nat, rangeFrom off s = positionsFrom off s := by
  induction s with
  | nil => intro off; rfl
  | cons c cs ih =>
    intro off
    rw [rangeFrom, positionsFrom, hbytes c (by simp),
      ih (fun x hx => hbytes x (List.mem_cons_of_mem _ hx))]

theorem positions_eq_rangeString {s : GoString} (hbytes : ∀ c ∈ s, c.utf8Size = 1) :
    positions s = rangeString s :=
  (rangeFrom_eq_positionsFrom hbytes 0).symm

/-- In an open round on a secret of one-byte characters without blank and
without underscore, the
rune of the specification and the rune `hintHandler` accepts are the same: the
first rune of the secret that is not tried. -/
theorem Inv.picks_agree {secret : GoString} {game : Game} (h : Inv secret game)
    (hover : game.GameOver = false) (hbytes : ∀ c ∈ secret, c.utf8Size = 1)
    (hblank : ' ' ∉ secret) (hplace : '_' ∉ secret) :
    specHintPick game = hintPick game := by
  have hb := h.board_of_open hover
  have h1 : specHintPick game = secret.find? fun c => !contains game.TriedLetters [c] := by
    rw [specHintPick, h.word, positions_eq_rangeString hbytes, rangeString,
      ← find_rangeFrom _ secret 0]
    congr 1
    apply find_congr
    intro p hp
    have hmem : p.2 ∈ secret := mem_of_mem_rangeFrom hp
    rw [hb, slotAt_boardOf h.nospace hp]
    cases ht : contains game.TriedLetters [p.2] with
    | false => simp
    | true =>
      have : p.2 ≠ '_' := fun e => hplace (e ▸ hmem)
      simp [this]
  have h2 : hintPick game = secret.find? fun c => !contains game.TriedLetters [c] := by
    rw [hintPick, h.word]
    apply find_congr
    intro c hc
    cases ht : contains game.TriedLetters [c] with
    | true => simp
    | false =>
      have hnot : c ∉ game.DisplayWord := by
        rw [hb]
        intro hmem
        rcases mem_boardOf hmem with e | e | ⟨_, e⟩
        · exact hblank (e ▸ hc)
        · exact hplace (e ▸ hc)
        · rw [ht] at e; exact Bool.noConfusion e
      rw [stringsContains_singleton_false.mpr hnot]
      rfl
  rw [h1, h2]

theorem winCheck_DisplayWord (game : Game) :
    (winCheck game).DisplayWord = game.DisplayWord := by
  unfold winCheck; split <;> rfl

theorem slotsOf_full {tried : List GoString} {secret : GoString}
    (h : ∀ c ∈ secret, contains tried [c] = true ∧ c.utf8Size = 1) :
    slotsOf tried secret = stringsExplode secret := by
  induction secret with
  | nil => rfl
  | cons c cs ih =>
    obtain ⟨h1, h2⟩ := h c (by simp)
    rw [slotsOf, if_pos h1, h2, ih (fun x hx => h x (List.mem_cons_of_mem _ hx))]
    rfl

theorem slotsOf_of_no_placeholder {tried : List GoString} {secret : GoString}
    (h : ∀ x ∈ slotsOf tried secret, '_' ∉ x) : slotsOf tried secret = stringsExplode secret := by
  induction secret with
  | nil => rfl
  | cons c cs ih =>
    have hpos := Char.utf8Size_pos c
    have h0 : contains tried [c] = true := by
      by_contra hc
      have := h ['_'] (by rw [slotsOf, if_neg hc]; simp)
      exact this (by simp)
    have h1 : c.utf8Size - 1 = 0 := by
      by_contra hk
      obtain ⟨k, hk'⟩ := Nat.exists_eq_succ_of_ne_zero hk
      have := h ['_'] (by rw [slotsOf, hk', List.replicate_succ]; simp)
      exact this (by simp)
    have hrest : ∀ x ∈ slotsOf tried cs, '_' ∉ x := by
      intro x hx
      apply h x
      rw [slotsOf]
      simp [hx]
    rw [slotsOf, if_pos h0, h1, ih hrest]
    rfl

theorem board_of_no_placeholder {tried : List GoString} {secret : GoString}
    (h : '_' ∉ boardOf tried secret) : slotsOf tried secret = stringsExplode secret := by
  apply slotsOf_of_no_placeholder
  intro x hx hmem
  exact h (mem_stringsJoin_of_mem (List.mem_append_left _ hx) hmem)

theorem no_placeholder_of_full {tried : List GoString} {secret : GoString}
    (h : slotsOf tried secret = stringsExplode secret) (hplace : '_' ∉ secret) :
    '_' ∉ boardOf tried secret := by
  intro hmem
  rw [boardOf, h] at hmem
  rcases mem_stringsJoin hmem with e | ⟨x, hx, hc⟩
  · exact absurd e (by decide)
  · simp only [stringsExplode, List.mem_append, List.mem_map, List.mem_singleton] at hx
    rcases hx with ⟨c, hcs, rfl⟩ | rfl
    · simp only [List.mem_singleton] at hc
      exact hplace (hc ▸ hcs)
    · simp at hc

theorem placeholder_mem_initial {secret : GoString} (h : secret ≠ []) :
    '_' ∈ boardOf [] secret := by
  cases secret with
  | nil => exact absurd rfl h
  | cons c cs =>
    apply mem_stringsJoin_of_mem (x := ['_'])
    · rw [slotsOf]
      simp [contains]
    · simp

theorem solving_indexHandler (U : UnicodeTables) (username difficulty : String)
    (word : GoString) (hlen : byteLen (stringsToUpper U word) = byteLen word)
    (hne : stringsToUpper U word ≠ []) :
    Solving (stringsToUpper U word) (indexHandler U username difficulty word) where
  inv := inv_indexHandler U username difficulty word hlen
  board := indexHandler_DisplayWord U username difficulty word hlen
  opened := by
    intro _
    rw [indexHandler_DisplayWord U username difficulty word hlen, stringsContains_singleton]
    exact placeholder_mem_initial hne
  done := by
    intro h
    exact Bool.noConfusion h

theorem solving_playHandler {U : UnicodeTables} {secret : GoString} {game : Game}
    {raw : GoString} (h : Solving secret game)
    (hraw : byteLen (normalize U raw) = 1 ∧ isLetter U (normalize U raw) = true ∧
      stringsContains secret (normalize U raw) = true) :
    ∃ g, playHandler U game raw = some g ∧ Solving secret g ∧
      (g.GameOver = true ∨ normalize U raw ∈ g.TriedLetters) ∧
      (∀ t ∈ game.TriedLetters, t ∈ g.TriedLetters) ∧
      (game.GameOver = true → g.GameOver = true) := by
  cases hover : game.GameOver with
  | true =>
    exact ⟨game, playHandler_finished raw hover, h, Or.inl hover, fun t ht => ht, fun _ => hover⟩
  | false =>
    obtain ⟨h1, hl, hw⟩ := hraw
    rw [← h.inv.word] at hw
    cases ht : contains game.TriedLetters (normalize U raw) with
    | true =>
      refine ⟨_, playHandler_tried hover h1 hl ht,
        ⟨h.inv.with_message _, h.board, h.opened, h.done⟩, Or.inr (contains_iff.mp ht),
        fun t ht => ht, ?_⟩
      intro hf
      exact Bool.noConfusion hf
    | false =>
      have e := playHandler_correct_letter hover h1 hl ht hw
      obtain ⟨c, hc, -⟩ := single_of_byteLen_one h1
      have hu : updateDisplayWord game.Word game.DisplayWord (normalize U raw) =
          some (boardOf (game.TriedLetters ++ [normalize U raw]) secret) := by
        rw [hc] at hl ⊢
        rw [h.inv.word, h.board]
        exact updateDisplayWord_boardOf h.inv.nospace _ _
      rw [hu, Option.map_some'] at e
      refine ⟨_, e, ⟨inv_playHandler h.inv e, ?_, ?_, ?_⟩, Or.inr ?_, ?_, ?_⟩
      · rw [winCheck_DisplayWord, winCheck_TriedLetters]
      · intro hopen
        rcases winCheck_cases { game with
            TriedLetters := game.TriedLetters ++ [normalize U raw], Message := "Bonne lettre!",
            DisplayWord := boardOf (game.TriedLetters ++ [normalize U raw]) secret }
          with ⟨hc1, e1⟩ | ⟨_, e1⟩
        · rw [winCheck_DisplayWord]; exact hc1
        · rw [e1] at hopen; exact Bool.noConfusion hopen
      · intro hdone
        rcases winCheck_cases { game with
            TriedLetters := game.TriedLetters ++ [normalize U raw], Message := "Bonne lettre!",
            DisplayWord := boardOf (game.TriedLetters ++ [normalize U raw]) secret }
          with ⟨_, e1⟩ | ⟨hc1, e1⟩
        · rw [e1] at hdone
          rw [hover] at hdone
          exact Bool.noConfusion hdone
        · rw [winCheck_DisplayWord]
          exact ⟨by rw [e1], hc1⟩
      · rw [winCheck_TriedLetters]
        simp
      · intro t ht
        rw [winCheck_TriedLetters]
        exact List.mem_append_left _ ht
      · intro hf
        exact Bool.noConfusion hf

theorem solving_run {U : UnicodeTables} {secret : GoString} (raws : List GoString) :
    ∀ game : Game, Solving secret game →
      (∀ raw ∈ raws, byteLen (normalize U raw) = 1 ∧ isLetter U (normalize U raw) = true ∧
        stringsContains secret (normalize U raw) = true) →
      ∃ g, run U game (guesses raws) = some g ∧ Solving secret g ∧
        (g.GameOver = true ∨ ∀ raw ∈ raws, normalize U raw ∈ g.TriedLetters) ∧
        (∀ t ∈ game.TriedLetters, t ∈ g.TriedLetters) ∧
        (game.GameOver = true → g.GameOver = true) := by
  induction raws with
  | nil =>
    intro game h _
    exact ⟨game, rfl, h, Or.inr (by simp), fun t ht => ht, fun hf => hf⟩
  | cons raw rest ih =>
    intro game h hall
    obtain ⟨g1, e1, hs1, hd1, hsub1, hmono1⟩ :=
      solving_playHandler h (hall raw (by simp))
    obtain ⟨g, e, hs, hd, hsub, hmono⟩ :=
      ih g1 hs1 (fun r hr => hall r (List.mem_cons_of_mem _ hr))
    refine ⟨g, ?_, hs, ?_, fun t ht => hsub t (hsub1 t ht), fun hf => hmono (hmono1 hf)⟩
    · rw [guesses, List.map_cons, run, serve, e1, Option.some_bind]
      exact e
    · rcases hd with hd | hd
      · exact Or.inl hd
      · rcases hd1 with hd1 | hd1
        · exact Or.inl (hmono hd1)
        · right
          intro r hr
          rw [List.mem_cons] at hr
          rcases hr with rfl | hr
          · exact hsub _ hd1
          · exact hd r hr

/-- A correct letter for a secret made of one-byte characters is one byte
long and passes `isLetter`. -/
theorem bytes_of_isCorrectLetter {U : UnicodeTables} {secret raw : GoString}
    (hbytes : ∀ c ∈ secret, c.utf8Size = 1) (h : isCorrectLetter U secret raw = true) :
    ∃ c, normalize U raw = [c] ∧ c ∈ secret ∧ unicodeIsLetter U c = true ∧
      byteLen (normalize U raw) = 1 ∧ isLetter U (normalize U raw) = true ∧
      stringsContains secret (normalize U raw) = true := by
  unfold isCorrectLetter at h
  split at h
  · rename_i c hc
    rw [Bool.and_eq_true] at h
    have hmem : c ∈ secret := stringsContains_singleton.mp h.2
    have hsize := hbytes c hmem
    refine ⟨c, hc, hmem, h.1, ?_, ?_, ?_⟩
    · rw [hc, byteLen_singleton, hsize]
    · rw [hc, isLetter_singleton U hsize, h.1]
    · rw [hc, h.2]
  · exact Bool.noConfusion h

theorem utf8Size_ofNat_ascii : ∀ n, n < 128 → (Char.ofNat n).utf8Size = 1 := by
  decide

theorem utf8Size_ascii (c : Char) (h : c.val.toNat < 0x80) : c.utf8Size = 1 := by
  have h1 : c.val ≤ 127 := by
    rw [UInt32.le_def, BitVec.le_def]
    have e1 : c.val.toBitVec.toNat = c.val.toNat := rfl
    have e2 : (127 : UInt32).toBitVec.toNat = 127 := rfl
    rw [e1, e2]
    omega
  simp [Char.utf8Size, h1]

theorem utf8Size_toUpper_ascii (c : Char) (h : c.val.toNat < 0x80) :
    c.toUpper.utf8Size = c.utf8Size := by
  rw [utf8Size_ascii c h]
  unfold Char.toUpper
  simp only []
  split
  · apply utf8Size_ofNat_ascii
    have : c.toNat = c.val.toNat := rfl
    omega
  · exact utf8Size_ascii c h

/-- An ASCII word keeps its byte length when uppercased. -/
theorem byteLen_stringsToUpper_ascii (U : UnicodeTables) (word : GoString)
    (h : word.all (fun c => decide (c.val.toNat < 0x80)) = true) :
    byteLen (stringsToUpper U word) = byteLen word := by
  rw [stringsToUpper, if_pos h]
  induction word with
  | nil => rfl
  | cons c cs ih =>
    rw [List.all_cons, Bool.and_eq_true, decide_eq_true_eq] at h
    rw [List.map_cons, byteLen_cons, byteLen_cons, ih h.2, utf8Size_toUpper_ascii c h.1]

/-- Guesses alone never take `AttemptsLeft` below zero: an open round has an
attempt left, and the guess that uses the last one ends the round. -/
theorem attempts_nonneg_of_guesses {U : UnicodeTables} (raws : List GoString) :
    ∀ {game g : Game}, game.AttemptsLeft ≤ 6 → 0 ≤ game.AttemptsLeft →
      (game.GameOver = false → 1 ≤ game.AttemptsLeft) →
      run U game (guesses raws) = some g →
      g.AttemptsLeft ≤ 6 ∧ 0 ≤ g.AttemptsLeft ∧ (g.GameOver = false → 1 ≤ g.AttemptsLeft) := by
  induction raws with
  | nil =>
    intro game g h6 h0 h1 hg
    rw [← Option.some.inj hg]
    exact ⟨h6, h0, h1⟩
  | cons raw rest ih =>
    intro game g h6 h0 h1 hg
    rw [guesses, List.map_cons, run, serve] at hg
    cases hp : playHandler U game raw with
    | none => rw [hp] at hg; exact Option.noConfusion hg
    | some g1 =>
      rw [hp, Option.some_bind] at hg
      have key : g1.AttemptsLeft ≤ 6 ∧ 0 ≤ g1.AttemptsLeft ∧
          (g1.GameOver = false → 1 ≤ g1.AttemptsLeft) := by
        cases hover : game.GameOver with
        | true =>
          rw [playHandler_finished raw hover] at hp
          rw [← Option.some.inj hp]
          exact ⟨h6, h0, h1⟩
        | false =>
          have hpos := h1 hover
          have hd : decr game.AttemptsLeft = game.AttemptsLeft - 1 :=
            decr_eq _ (by norm_num; omega) (by norm_num; omega)
          have hloss : ∀ x : Game, x.AttemptsLeft = game.AttemptsLeft - 1 →
              (lossCheck x).AttemptsLeft ≤ 6 ∧ 0 ≤ (lossCheck x).AttemptsLeft ∧
                ((lossCheck x).GameOver = false → 1 ≤ (lossCheck x).AttemptsLeft) := by
            intro x hx
            rcases lossCheck_cases x with ⟨hp1, e⟩ | ⟨_, e⟩
            · rw [e]; exact ⟨by omega, by omega, fun _ => by omega⟩
            · rw [e]; exact ⟨by show x.AttemptsLeft ≤ 6; omega,
                by show 0 ≤ x.AttemptsLeft; omega, fun hf => Bool.noConfusion hf⟩
          rcases playHandler_cases U game raw hover with
            ⟨m, e⟩ | ⟨_, _, _, _, e⟩ | ⟨_, _, _, _, e⟩ | e | e
          · rw [e] at hp
            rw [← Option.some.inj hp]
            exact ⟨h6, h0, fun _ => hpos⟩
          · rw [e] at hp
            cases hu : updateDisplayWord game.Word game.DisplayWord (normalize U raw) with
            | none => rw [hu] at hp; exact Option.noConfusion hp
            | some d =>
              rw [hu, Option.map_some'] at hp
              rw [← Option.some.inj hp, winCheck_AttemptsLeft]
              exact ⟨h6, h0, fun _ => hpos⟩
          · rw [e] at hp
            rw [← Option.some.inj hp]
            exact hloss _ hd
          · rw [e] at hp
            rw [← Option.some.inj hp]
            exact ⟨h6, h0, fun hf => Bool.noConfusion hf⟩
          · rw [e] at hp
            rw [← Option.some.inj hp]
            exact hloss _ hd
      exact ih key.1 key.2.1 key.2.2 hg


/-! ## C1: how `AttemptsLeft` changes -/

/-- C1 (as the code has it): in an unfinished state whose `AttemptsLeft` is a
64-bit integer above the least one, with `guess` the trimmed and uppercased
form value: a wrong letter (`guess` is one byte long, a letter, not tried, not
in `Word`) leaves `AttemptsLeft` one less with "Mauvaise lettre!"; a wrong word
(`guess` has as many bytes as `Word`, is not one byte long, all letters,
different from `Word`) leaves it one less with "Mot incorrect!"; a correct
letter (one byte long, a letter, not tried, in `Word`) and an already-tried
letter (one byte long, a letter, in `TriedLetters`) leave it unchanged; a hint
that finds a rune to reveal leaves it one less with "Indice utilisé!".  The two
transitions that reveal letters store a state exactly when `updateDisplayWord`
does not panic. -/
theorem attempts_change (U : UnicodeTables) (game : Game) (raw : GoString)
    (hover : game.GameOver = false)
    (hmin : -2 ^ 63 < game.AttemptsLeft) (hmax : game.AttemptsLeft < 2 ^ 63) :
    (byteLen (normalize U raw) = 1 → isLetter U (normalize U raw) = true →
      contains game.TriedLetters (normalize U raw) = false →
      stringsContains game.Word (normalize U raw) = false →
      ∃ g, playHandler U game raw = some g ∧
        g.AttemptsLeft = game.AttemptsLeft - 1 ∧ g.Message = "Mauvaise lettre!") ∧
    (byteLen (normalize U raw) = byteLen game.Word → byteLen (normalize U raw) ≠ 1 →
      isWord U (normalize U raw) = true → normalize U raw ≠ game.Word →
      ∃ g, playHandler U game raw = some g ∧
        g.AttemptsLeft = game.AttemptsLeft - 1 ∧ g.Message = "Mot incorrect!") ∧
    (byteLen (normalize U raw) = 1 → isLetter U (normalize U raw) = true →
      contains game.TriedLetters (normalize U raw) = false →
      stringsContains game.Word (normalize U raw) = true →
      (playHandler U game raw).isSome =
          (updateDisplayWord game.Word game.DisplayWord (normalize U raw)).isSome ∧
        ∀ g, playHandler U game raw = some g →
          g.AttemptsLeft = game.AttemptsLeft ∧ g.Message = "Bonne lettre!") ∧
    (byteLen (normalize U raw) = 1 → isLetter U (normalize U raw) = true →
      contains game.TriedLetters (normalize U raw) = true →
      ∃ g, playHandler U game raw = some g ∧
        g.AttemptsLeft = game.AttemptsLeft ∧ g.Message = "Lettre déjà essayée.") ∧
    (∀ c, hintPick game = some c →
      (hintHandler game).isSome =
          (updateDisplayWord game.Word game.DisplayWord [c]).isSome ∧
        ∀ g, hintHandler game = some g →
          g.AttemptsLeft = game.AttemptsLeft - 1 ∧ g.Message = "Indice utilisé!") := by
  have hdecr := decr_eq game.AttemptsLeft hmin hmax
  refine ⟨?_, ?_, ?_, ?_, ?_⟩
  · intro h1 hl ht hw
    refine ⟨_, playHandler_wrong_letter hover h1 hl ht hw, ?_, ?_⟩
    · rw [lossCheck_AttemptsLeft]; exact hdecr
    · rw [lossCheck_Message]
  · intro hlen h1 hword hneq
    refine ⟨_, playHandler_wrong_word hover hlen (fun h => h1 h.1) hword hneq, ?_, ?_⟩
    · rw [lossCheck_AttemptsLeft]; exact hdecr
    · rw [lossCheck_Message]
  · intro h1 hl ht hw
    rw [playHandler_correct_letter hover h1 hl ht hw]
    constructor
    · simp
    · intro g hg
      cases hu : updateDisplayWord game.Word game.DisplayWord (normalize U raw) with
      | none => rw [hu] at hg; simp at hg
      | some d =>
        rw [hu] at hg
        simp only [Option.map_some', Option.some.injEq] at hg
        subst hg
        rw [winCheck_AttemptsLeft, winCheck_Message]
        exact ⟨rfl, rfl⟩
  · intro h1 hl ht
    exact ⟨_, playHandler_tried hover h1 hl ht, rfl, rfl⟩
  · intro c hc
    rw [hintHandler_of_pick hover hc]
    constructor
    · simp
    · intro g hg
      cases hu : updateDisplayWord game.Word game.DisplayWord [c] with
      | none => rw [hu] at hg; simp at hg
      | some d =>
        rw [hu] at hg
        simp only [Option.map_some', Option.some.injEq] at hg
        subst hg
        rw [winCheck_AttemptsLeft, winCheck_Message]
        exact ⟨hdecr, rfl⟩


/-- C1 on a round on "CHAT" after the guess "C": a wrong letter, a wrong word, a
correct letter, a tried letter and a hint. -/
theorem attempts_change_witness :
    (∃ g, playHandler asciiTables midRound "z".toList = some g ∧
      g.AttemptsLeft = 5 ∧ g.Message = "Mauvaise lettre!") ∧
    (∃ g, playHandler asciiTables midRound "chou".toList = some g ∧
      g.AttemptsLeft = 5 ∧ g.Message = "Mot incorrect!") ∧
    (∀ g, playHandler asciiTables midRound "h".toList = some g →
      g.AttemptsLeft = 6 ∧ g.Message = "Bonne lettre!") ∧
    (∃ g, playHandler asciiTables midRound "c".toList = some g ∧
      g.AttemptsLeft = 6 ∧ g.Message = "Lettre déjà essayée.") ∧
    (∀ g, hintHandler midRound = some g →
      g.AttemptsLeft = 5 ∧ g.Message = "Indice utilisé!") :=
  ⟨(attempts_change asciiTables midRound "z".toList (by decide) (by decide) (by decide)).1
      (by decide) (by decide) (by decide) (by decide),
   (attempts_change asciiTables midRound "chou".toList (by decide) (by decide) (by decide)).2.1
      (by decide) (by decide) (by decide) (by decide),
   ((attempts_change asciiTables midRound "h".toList (by decide) (by decide) (by decide)).2.2.1
      (by decide) (by decide) (by decide) (by decide)).2,
   (attempts_change asciiTables midRound "c".toList (by decide) (by decide) (by decide)).2.2.2.1
      (by decide) (by decide) (by decide),
   ((attempts_change asciiTables midRound [] (by decide) (by decide) (by decide)).2.2.2.2
      'H' (by decide)).2⟩

/-- C1 as stated fails. On the one-letter word "A", once "B" has been tried,
the guess "B" is as long as the word, all letters and different from it, yet it
is handled as an already-tried letter: `AttemptsLeft` stays 5 and the message
is not "Mot incorrect!".  From the least 64-bit `AttemptsLeft` a wrong letter
wraps around to the greatest one instead of one less.  A wrong letter of more
than one byte, as "é" for "CHAT", is answered "Entrée invalide." and costs
nothing; so is the wrong word "étés", which has as many characters as "CHAT"
but more bytes. -/
theorem attempts_change_fails :
    playHandler asciiTables (indexHandler asciiTables "joueur" "facile" "a".toList) "b".toList =
        some oneLetterRound ∧
      byteLen (normalize asciiTables "b".toList) = byteLen oneLetterRound.Word ∧
      isWord asciiTables (normalize asciiTables "b".toList) = true ∧
      normalize asciiTables "b".toList ≠ oneLetterRound.Word ∧
      playHandler asciiTables oneLetterRound "b".toList =
        some { oneLetterRound with Message := "Lettre déjà essayée." } ∧
      (playHandler asciiTables leastRound "z".toList).map
          (fun g => (g.AttemptsLeft, g.Message)) =
        some (9223372036854775807, "Mauvaise lettre!") ∧
      isWrongLetter latin1Tables (indexHandler latin1Tables "joueur" "facile" "chat".toList)
        "é".toList = true ∧
      playHandler latin1Tables (indexHandler latin1Tables "joueur" "facile" "chat".toList)
          "é".toList = some invalidRound ∧
      (normalize latin1Tables "étés".toList).length = invalidRound.Word.length ∧
      isWord latin1Tables (normalize latin1Tables "étés".toList) = true ∧
      normalize latin1Tables "étés".toList ≠ invalidRound.Word ∧
      playHandler latin1Tables (indexHandler latin1Tables "joueur" "facile" "chat".toList)
          "étés".toList = some invalidRound := by
  decide


/-! ## C2: correct letters that cover the secret win the round -/

/-- C2 (as the code has it): for a non-empty secret `S` made of one-byte
characters, the uppercased form of a catalog word with as many bytes as `S`,
every sequence of correct-letter guesses (one character, a letter, in `S`) that
covers every character of `S`, applied in order to the state `indexHandler`
builds, ends the round with `GameOver = true` and `Won = true`; no placeholder
is left and the slots of `DisplayWord` are the characters of `S` in order
(followed by the empty piece after the last blank). -/
theorem covering_letters_win (U : UnicodeTables) (username difficulty : String)
    (word : GoString) (raws : List GoString)
    (hlen : byteLen (stringsToUpper U word) = byteLen word)
    (hne : stringsToUpper U word ≠ [])
    (hbytes : ∀ c ∈ stringsToUpper U word, c.utf8Size = 1)
    (hcorrect : ∀ raw ∈ raws, isCorrectLetter U (stringsToUpper U word) raw = true)
    (hcover : ∀ c ∈ stringsToUpper U word, ∃ raw ∈ raws, normalize U raw = [c]) :
    ∃ g, run U (indexHandler U username difficulty word) (guesses raws) = some g ∧
      g.GameOver = true ∧ g.Won = true ∧
      stringsContains g.DisplayWord ['_'] = false ∧
      stringsSplit g.DisplayWord ' ' = stringsExplode (stringsToUpper U word) ++ [[]] := by
  have hcorrect' : ∀ raw ∈ raws, byteLen (normalize U raw) = 1 ∧
      isLetter U (normalize U raw) = true ∧
      stringsContains (stringsToUpper U word) (normalize U raw) = true := by
    intro raw hraw
    obtain ⟨_, _, _, _, h1, h2, h3⟩ := bytes_of_isCorrectLetter hbytes (hcorrect raw hraw)
    exact ⟨h1, h2, h3⟩
  obtain ⟨g, e, hs, hd, -, -⟩ :=
    solving_run raws _ (solving_indexHandler U username difficulty word hlen hne) hcorrect'
  have hnone : stringsContains g.DisplayWord ['_'] = false := by
    rcases hd with hd | hd
    · exact (hs.done hd).2
    · rw [stringsContains_singleton_false, hs.board]
      apply no_placeholder_of_full
      · apply slotsOf_full
        intro c hc
        obtain ⟨raw, hraw, hnorm⟩ := hcover c hc
        exact ⟨contains_iff.mpr (hnorm ▸ hd raw hraw), hbytes c hc⟩
      · intro hmem
        obtain ⟨raw, hraw, hnorm⟩ := hcover '_' hmem
        obtain ⟨c, hc, _, hl, _, _, _⟩ := bytes_of_isCorrectLetter hbytes (hcorrect raw hraw)
        rw [hnorm] at hc
        have hc' : c = '_' := (List.singleton_inj.mp hc).symm
        rw [hc'] at hl
        have h0 : unicodeIsLetter U '_' = false := rfl
        rw [h0] at hl
        exact Bool.noConfusion hl
  have hover : g.GameOver = true := by
    cases hg : g.GameOver with
    | true => rfl
    | false =>
      have := hs.opened hg
      rw [hnone] at this
      exact Bool.noConfusion this
  refine ⟨g, e, hover, (hs.done hover).1, hnone, ?_⟩
  rw [hs.board]
  rw [stringsContains_singleton_false, hs.board] at hnone
  rw [stringsSplit_boardOf hs.inv.nospace, board_of_no_placeholder hnone]

/-- C2 on the word "chat": the guesses "t", "a", "t", "h" and "c". -/
theorem covering_letters_win_witness :
    ∃ g, run asciiTables (indexHandler asciiTables "joueur" "facile" "chat".toList)
        (guesses ["t".toList, "a".toList, "t".toList, " h".toList, "c".toList]) = some g ∧
      g.GameOver = true ∧ g.Won = true ∧
      stringsContains g.DisplayWord ['_'] = false ∧
      stringsSplit g.DisplayWord ' ' =
        ["C".toList, "H".toList, "A".toList, "T".toList, []] :=
  covering_letters_win asciiTables "joueur" "facile" "chat".toList
    ["t".toList, "a".toList, "t".toList, " h".toList, "c".toList]
    (by decide) (by decide) (by decide) (by decide) (by decide)

/-- C2 as stated fails on the empty secret: no guess is needed to cover it, and
the state built for it is not finished.  It fails when the catalog word
has more bytes than the secret, as "ıl" for the secret "IL": the guesses "i"
and "l" cover the secret and a placeholder is left.  And it fails on a secret
with a character of more than one byte, as "ÉTÉ": the correct letters "é" and
"t" cover it, but "é" is answered "Entrée invalide." and the round stays
open. -/
theorem empty_secret_not_won :
    (∀ c ∈ (indexHandler asciiTables "joueur" "facile" []).Word,
        ∃ raw ∈ ([] : List GoString), normalize asciiTables raw = [c]) ∧
      run asciiTables (indexHandler asciiTables "joueur" "facile" []) (guesses []) =
        some (indexHandler asciiTables "joueur" "facile" []) ∧
      (indexHandler asciiTables "joueur" "facile" []).GameOver = false ∧
      (indexHandler dotlessTables "joueur" "facile" "ıl".toList).Word = "IL".toList ∧
      isCorrectLetter dotlessTables "IL".toList "i".toList = true ∧
      isCorrectLetter dotlessTables "IL".toList "l".toList = true ∧
      run dotlessTables (indexHandler dotlessTables "joueur" "facile" "ıl".toList)
          (guesses ["i".toList, "l".toList]) = some dotlessRound ∧
      byteLen (stringsToUpper latin1Tables "été".toList) = byteLen "été".toList ∧
      (∀ raw ∈ ["é".toList, "t".toList],
        isCorrectLetter latin1Tables (stringsToUpper latin1Tables "été".toList) raw = true) ∧
      (∀ c ∈ stringsToUpper latin1Tables "été".toList,
        ∃ raw ∈ ["é".toList, "t".toList], normalize latin1Tables raw = [c]) ∧
      run latin1Tables (indexHandler latin1Tables "joueur" "facile" "été".toList)
          (guesses ["é".toList, "t".toList]) = some eteRound := by
  refine ⟨?_, rfl, rfl, by decide, by decide, by decide, by decide, by decide, by decide,
    by decide, by decide⟩
  intro c hc
  exact absurd hc (List.not_mem_nil c)


/-! ## C3: six wrong guesses lose the round -/

/-- C3 (as the code has it): six guesses from the state `indexHandler` builds,
each a wrong letter that is one byte long (one character, a letter, not yet
tried, not in the secret) or a wrong word that is not one byte long (as many
bytes as the secret, all letters, different from the secret): the round is open
after each of the first five, and after the sixth `AttemptsLeft = 0`, the round
is over and lost, and `DisplayWord` is still the initial reveal. -/
theorem six_wrong_guesses_lose (U : UnicodeTables) (username difficulty : String)
    (word : GoString) (raws : List GoString) (hsix : raws.length = 6)
    (hwrong : allWrong U (indexHandler U username difficulty word) raws = true) :
    (∀ k, k < 6 →
      ∃ g, run U (indexHandler U username difficulty word) (guesses (raws.take k)) = some g ∧
        g.GameOver = false) ∧
    ∃ g, run U (indexHandler U username difficulty word) (guesses raws) = some g ∧
      g.AttemptsLeft = 0 ∧ g.GameOver = true ∧ g.Won = false ∧
      g.DisplayWord = stringsRepeat ['_', ' '] (byteLen word) := by
  constructor
  · intro k hk
    have hlen : (raws.take k).length = k := by
      rw [List.length_take, hsix]; omega
    obtain ⟨g, hg, -, -, -, h4⟩ :=
      run_allWrong (raws.take k) (indexHandler U username difficulty word) 6 rfl rfl rfl
        (le_refl _) (by omega) (allWrong_take raws _ k hwrong)
    refine ⟨g, hg, ?_⟩
    rw [h4, hlen]
    simp only [decide_eq_false_iff_not]
    omega
  · obtain ⟨g, hg, h1, h2, h3, h4⟩ :=
      run_allWrong raws (indexHandler U username difficulty word) 6 rfl rfl rfl
        (le_refl _) (by omega) hwrong
    refine ⟨g, hg, ?_, ?_, h3, h2⟩
    · rw [h1, hsix]; rfl
    · rw [h4, hsix]; rfl

/-- C3 on the secret "BONJOUR" with the guesses X, Y, Z, Q, W, K. -/
theorem six_wrong_guesses_lose_witness :
    (∀ k, k < 6 →
      ∃ g, run asciiTables (indexHandler asciiTables "joueur" "facile" "BONJOUR".toList)
          (guesses (bonjourGuesses.take k)) = some g ∧ g.GameOver = false) ∧
    ∃ g, run asciiTables (indexHandler asciiTables "joueur" "facile" "BONJOUR".toList)
        (guesses bonjourGuesses) = some g ∧
      g.AttemptsLeft = 0 ∧ g.GameOver = true ∧ g.Won = false ∧
      g.DisplayWord = "_ _ _ _ _ _ _ ".toList :=
  six_wrong_guesses_lose asciiTables "joueur" "facile" "BONJOUR".toList bonjourGuesses
    (by decide) (by decide)

/-- C3 as stated fails on a one-letter secret: for the word "a" the guess "b"
is first a wrong letter and then, being tried, still a guess as long as the
secret, all letters and different from it; posted six times it costs one
attempt only and the round stays open.  It fails on letters of more than one
byte: six distinct accented letters, each a wrong letter for "chat" when it is
posted, are all answered "Entrée invalide." and cost nothing.  So does, six
times, the wrong word "étés", which has as many characters as "chat" but more
bytes. -/
theorem six_wrong_guesses_one_letter :
    isWrongGuess asciiTables (indexHandler asciiTables "joueur" "facile" "a".toList)
        "b".toList = true ∧
      byteLen (normalize asciiTables "b".toList) = byteLen repeatedRound.Word ∧
      isWord asciiTables (normalize asciiTables "b".toList) = true ∧
      normalize asciiTables "b".toList ≠ repeatedRound.Word ∧
      run asciiTables (indexHandler asciiTables "joueur" "facile" "a".toList)
          (guesses (List.replicate 6 "b".toList)) = some repeatedRound ∧
      allWrongLetters latin1Tables (indexHandler latin1Tables "joueur" "facile" "chat".toList)
        accentedGuesses = true ∧
      run latin1Tables (indexHandler latin1Tables "joueur" "facile" "chat".toList)
          (guesses accentedGuesses) = some invalidRound ∧
      (normalize latin1Tables "étés".toList).length = invalidRound.Word.length ∧
      isWord latin1Tables (normalize latin1Tables "étés".toList) = true ∧
      normalize latin1Tables "étés".toList ≠ invalidRound.Word ∧
      run latin1Tables (indexHandler latin1Tables "joueur" "facile" "chat".toList)
          (guesses (List.replicate 6 "étés".toList)) = some invalidRound := by
  decide

/-! ## C4: the whole word guessed right -/

/-- C4 (as the code has it): in an unfinished state whose `Word` is made of
letters only and is at least two bytes long, whatever `AttemptsLeft`,
`TriedLetters` and `DisplayWord` are, a guess that equals `Word` once trimmed
and uppercased ends the round as won, and `DisplayWord` becomes the runes of
`Word` separated by blanks: its slots are exactly the runes of `Word`. -/
theorem correct_word_wins (U : UnicodeTables) (game : Game) (raw : GoString)
    (hover : game.GameOver = false) (hguess : normalize U raw = game.Word)
    (hletters : isWord U game.Word = true) (hlen : 2 ≤ byteLen game.Word) :
    playHandler U game raw =
        some { game with
          DisplayWord := stringsJoin (stringsExplode game.Word) [' ']
          GameOver := true, Won := true } ∧
      stringsSplit (stringsJoin (stringsExplode game.Word) [' ']) ' ' =
        stringsExplode game.Word := by
  have hne : game.Word ≠ [] := by
    rintro h
    rw [h] at hlen
    simp [byteLen] at hlen
  constructor
  · have h1 : ¬ byteLen game.Word = 1 := by omega
    simp [playHandler, hover, hguess, hne, h1, hletters]
  · apply stringsSplit_join
    · simpa [stringsExplode] using hne
    · intro x hx
      simp only [stringsExplode, List.mem_map] at hx
      obtain ⟨c, hc, rfl⟩ := hx
      have := not_mem_of_isWord hletters
      intro h
      simp only [List.mem_singleton] at h
      exact this (h ▸ hc)

/-- C4 on a late round on "CHAT": the guess " chat " wins it. -/
theorem correct_word_wins_witness :
    playHandler asciiTables lateRound " chat ".toList =
        some { lateRound with
          DisplayWord := "C H A T".toList, GameOver := true, Won := true } ∧
      stringsSplit "C H A T".toList ' ' = ["C".toList, "H".toList, "A".toList, "T".toList] :=
  correct_word_wins asciiTables lateRound " chat ".toList (by decide) (by decide) (by decide)
    (by decide)

/-- C4 as stated fails: for the catalog word "a-b" the guess "a-b" equals the
secret "A-B" but is rejected as invalid, and the round goes on; so does the
round on the empty word after the empty guess, and the round on "A" whose
letter is already tried. -/
theorem correct_word_not_always_won :
    normalize asciiTables "a-b".toList =
        (indexHandler asciiTables "joueur" "facile" "a-b".toList).Word ∧
      (playHandler asciiTables (indexHandler asciiTables "joueur" "facile" "a-b".toList)
          "a-b".toList).map (fun g => (g.GameOver, g.Won, g.Message)) =
        some (false, false, "Entrée invalide.") ∧
      (playHandler asciiTables (indexHandler asciiTables "joueur" "facile" []) []).map
          (fun g => (g.GameOver, g.Won, g.Message)) =
        some (false, false, "Veuillez entrer une lettre ou un mot.") ∧
      (playHandler asciiTables triedRound "a".toList).map
          (fun g => (g.GameOver, g.Won, g.Message)) =
        some (false, false, "Lettre déjà essayée.") := by
  decide


/-! ## C5: hints take `AttemptsLeft` below zero -/

set_option maxRecDepth 100000 in
/-- C5 fails in the code: on the catalog word "abcdefgh" seven hints leave the
round open with `AttemptsLeft = -1`. -/
theorem seven_hints_below_zero :
    run asciiTables (indexHandler asciiTables "joueur" "facile" "abcdefgh".toList)
        (List.replicate 7 Request.hint) =
      some { Username := "joueur", Difficulty := "facile", Word := "ABCDEFGH".toList,
             DisplayWord := "A B C D E F G _ ".toList, AttemptsLeft := -1,
             TriedLetters := ["A".toList, "B".toList, "C".toList, "D".toList, "E".toList,
               "F".toList, "G".toList],
             Message := "Indice utilisé!", GameOver := false, Won := false } := by
  decide


/-! ## C6: a hint on a board without placeholder -/

/-- C6 (as the code has it): in an unfinished state whose `DisplayWord` has no
placeholder and where every rune of `Word` occurs in `DisplayWord` or in
`TriedLetters`, a hint sets the message "Aucune lettre à révéler.", leaves
`Word`, `DisplayWord`, `AttemptsLeft` and `TriedLetters` as they are, and ends
the round as won. -/
theorem hint_on_solved_board (game : Game) (hover : game.GameOver = false)
    (hfull : stringsContains game.DisplayWord ['_'] = false)
    (hshown : ∀ c ∈ game.Word,
      stringsContains game.DisplayWord [c] = true ∨ contains game.TriedLetters [c] = true) :
    hintHandler game =
      some { game with Message := "Aucune lettre à révéler.", GameOver := true, Won := true } := by
  have hp : hintPick game = none := by
    unfold hintPick
    rw [List.find?_eq_none]
    intro c hc
    rcases hshown c hc with h | h <;> simp [h]
  rw [hintHandler_of_no_pick hover hp]
  simp [winCheck, hfull]

/-- C6 on the solved board of "AB". -/
theorem hint_on_solved_board_witness :
    hintHandler solvedBoard =
      some { solvedBoard with
        Message := "Aucune lettre à révéler.", GameOver := true, Won := true } :=
  hint_on_solved_board solvedBoard (by decide) (by decide) (by decide)

/-- C6 as stated fails: on the solved board of "AB", unfinished and without
placeholder, the hint changes `GameOver` and `Won` from false to true; so it
does on the state built for the empty catalog word.  And a reveal without
placeholder that does not show the letters of `Word` gets a hint: on the empty
reveal of "AB" the hint is used. -/
theorem hint_on_solved_board_ends_round :
    solvedBoard.GameOver = false ∧ solvedBoard.Won = false ∧
      stringsContains solvedBoard.DisplayWord ['_'] = false ∧
      (hintHandler solvedBoard).map (fun g => (g.GameOver, g.Won)) = some (true, true) ∧
      (hintHandler (indexHandler asciiTables "joueur" "facile" [])).map
        (fun g => (g.GameOver, g.Won)) = some (true, true) ∧
      stringsContains blankBoard.DisplayWord ['_'] = false ∧
      (hintHandler blankBoard).map (fun g => (g.Message, g.AttemptsLeft, g.TriedLetters)) =
        some ("Indice utilisé!", 5, ["A".toList]) := by
  decide


/-! ## C7: the rune a hint reveals -/

/-- C7 (as the code has it): for a catalog word whose uppercased form is made
of one-byte characters, has as many bytes as the word and holds neither a blank
nor an underscore, in every unfinished state reached from the state
`indexHandler` builds, a hint picks the first character of `Word`, in order,
whose own reveal slot (the slot at its position) still holds the placeholder
and which is not in `TriedLetters`.  When there is such a character it is
appended to `TriedLetters`, the slot of every position of `Word` that holds it
shows it and the other slots are as before, `AttemptsLeft` is one less and the
message is "Indice utilisé!"; when there is none, nothing is picked:
`TriedLetters`, `DisplayWord` and `AttemptsLeft` are unchanged. -/
theorem hint_reveals_first_hidden (U : UnicodeTables) (username difficulty : String)
    (word : GoString) (requests : List Request) (game : Game)
    (hlen : byteLen (stringsToUpper U word) = byteLen word)
    (hbytes : ∀ c ∈ stringsToUpper U word, c.utf8Size = 1)
    (hblank : ' ' ∉ stringsToUpper U word) (hplace : '_' ∉ stringsToUpper U word)
    (hrun : run U (indexHandler U username difficulty word) requests = some game)
    (hover : game.GameOver = false) :
    (∀ c, specHintPick game = some c →
      ∃ g, hintHandler game = some g ∧ g.TriedLetters = game.TriedLetters ++ [[c]] ∧
        (∀ p ∈ positions game.Word,
          slotAt g.DisplayWord p.1 =
            if p.2 = c then some [c] else slotAt game.DisplayWord p.1) ∧
        g.AttemptsLeft = game.AttemptsLeft - 1 ∧ g.Message = "Indice utilisé!") ∧
    (specHintPick game = none →
      ∃ g, hintHandler game = some g ∧ g.TriedLetters = game.TriedLetters ∧
        g.DisplayWord = game.DisplayWord ∧ g.AttemptsLeft = game.AttemptsLeft ∧
        g.Message = "Aucune lettre à révéler.") := by
  have h : Inv (stringsToUpper U word) game :=
    inv_run requests (inv_indexHandler U username difficulty word hlen) hrun
  have hagree := h.picks_agree hover hbytes hblank hplace
  have hb := h.board_of_open hover
  constructor
  · intro c hc
    rw [hagree] at hc
    obtain ⟨hsp, e⟩ := h.hint_pick hover hc
    obtain ⟨_, _, ht⟩ := hintPick_some hc
    refine ⟨_, e, ?_, ?_, ?_, ?_⟩
    · rw [winCheck_TriedLetters]
    · intro p hp
      rw [h.word, positions_eq_rangeString hbytes] at hp
      rw [winCheck_DisplayWord, hb, slotAt_boardOf h.nospace hp]
      show slotAt (boardOf (game.TriedLetters ++ [[c]]) (stringsToUpper U word)) p.1 = _
      rw [slotAt_boardOf (h.tried_append hsp ht).1 hp, contains_append_singleton]
      by_cases hpc : p.2 = c
      · rw [if_pos hpc, hpc]
        simp
      · rw [if_neg hpc]
        have : decide (([c] : GoString) = [p.2]) = false := by
          simp only [decide_eq_false_iff_not, List.cons.injEq, and_true]
          exact fun e => hpc e.symm
        rw [this, Bool.or_false]
    · rw [winCheck_AttemptsLeft]
    · rw [winCheck_Message]
  · intro hc
    rw [hagree] at hc
    refine ⟨_, hintHandler_of_no_pick hover hc, ?_, ?_, ?_, ?_⟩
    · rw [winCheck_TriedLetters]
    · rw [winCheck_DisplayWord]
    · rw [winCheck_AttemptsLeft]
    · rw [winCheck_Message]

/-- C7 on a round on "chat" where "T" is the first hidden letter. -/
theorem hint_reveals_first_hidden_witness :
    specHintPick sampleRound = some 'T' ∧
      ∃ g, hintHandler sampleRound = some g ∧
        g.TriedLetters = ["C".toList, "H".toList, "Z".toList, "A".toList, "T".toList] ∧
        (∀ p ∈ positions sampleRound.Word,
          slotAt g.DisplayWord p.1 =
            if p.2 = 'T' then some ['T'] else slotAt sampleRound.DisplayWord p.1) ∧
        g.AttemptsLeft = 2 ∧ g.Message = "Indice utilisé!" :=
  ⟨by decide,
    (hint_reveals_first_hidden asciiTables "joueur" "facile" "chat".toList sampleRequests
      sampleRound (by decide) (by decide) (by decide) (by decide) (by decide) (by decide)).1 'T'
      (by decide)⟩

/-- C7 as stated fails on a secret with a blank: in the round on "a b", after a
first hint, the first character whose own slot holds the placeholder and which
is not tried is the blank, but the hint appends "B" to `TriedLetters`.  It
fails in the same way on the underscore of "a_b".  It fails on a character of
more than one byte: in the round on "éab", after the guess "a" and a hint, no
untried character has the placeholder in its own slot, and yet the hint picks
"B".  And when uppercasing makes the word longer, as for "ɐb", the hint picks
"B" and leaves the placeholder in its slot. -/
theorem hint_skips_blank :
    run asciiTables (indexHandler asciiTables "joueur" "facile" "a b".toList) [Request.hint] =
        some spacedRound ∧
      spacedRound.GameOver = false ∧ specHintPick spacedRound = some ' ' ∧
      (hintHandler spacedRound).map (fun g => g.TriedLetters) =
        some ["A".toList, "B".toList] ∧
      run asciiTables (indexHandler asciiTables "joueur" "facile" "a_b".toList) [Request.hint] =
        some underscoreRound ∧
      specHintPick underscoreRound = some '_' ∧
      (hintHandler underscoreRound).map (fun g => g.TriedLetters) =
        some ["A".toList, "B".toList] ∧
      byteLen (stringsToUpper latin1Tables "éab".toList) = byteLen "éab".toList ∧
      run latin1Tables (indexHandler latin1Tables "joueur" "facile" "éab".toList)
          [Request.guess "a".toList, Request.hint] = some accentRound ∧
      specHintPick accentRound = none ∧
      (hintHandler accentRound).map (fun g => (g.TriedLetters, g.AttemptsLeft)) =
        some (["A".toList, "É".toList, "B".toList], 4) ∧
      run turnedTables (indexHandler turnedTables "joueur" "facile" "ɐb".toList) [Request.hint] =
        some turnedRound ∧
      specHintPick turnedRound = some 'B' ∧
      (hintHandler turnedRound).map
          (fun g => (g.TriedLetters, slotAt g.DisplayWord 1, g.DisplayWord)) =
        some (["Ɐ".toList, "B".toList], some ['_'], "Ɐ _ _ B".toList) := by
  decide


/-! ## C8: the worked example on "CHAT" -/

/-- C8 (as the code has it): from the state `indexHandler` builds for the word
"CHAT", the guess "C" stores the reveal "C _ _ _ " (the four slots followed by
the blank that `strings.Repeat("_ ", 4)` ends with), keeps `AttemptsLeft` at 6
and sets the message "Bonne lettre!". -/
theorem chat_guess_C (U : UnicodeTables) (username difficulty : String) :
    playHandler U (indexHandler U username difficulty "CHAT".toList) "C".toList =
      some { Username := username, Difficulty := difficulty, Word := "CHAT".toList,
             DisplayWord := "C _ _ _ ".toList, AttemptsLeft := 6,
             TriedLetters := ["C".toList], Message := "Bonne lettre!",
             GameOver := false, Won := false } := by
  rfl

/-- C8 as stated fails: after the guess "C" the stored reveal is "C _ _ _ "
with a trailing blank, which is not the string "C _ _ _". -/
theorem chat_guess_C_not_trimmed :
    (playHandler asciiTables (indexHandler asciiTables "joueur" "facile" "CHAT".toList)
        "C".toList).map (fun g => g.DisplayWord) = some "C _ _ _ ".toList ∧
      "C _ _ _ ".toList ≠ "C _ _ _".toList := by
  decide

/-! ## C9: no letter is tried twice -/

/-- C9: in every state reached from the state `indexHandler` builds (no tried
letter) by guesses and hints, `TriedLetters` has no duplicate entry. -/
theorem tried_letters_nodup (U : UnicodeTables) (username difficulty : String)
    (word : GoString) (requests : List Request) (game : Game)
    (hrun : run U (indexHandler U username difficulty word) requests = some game) :
    game.TriedLetters.Nodup :=
  nodup_run requests List.nodup_nil hrun

/-- C9 on a round on "chat" with guesses and hints. -/
theorem tried_letters_nodup_witness :
    run asciiTables (indexHandler asciiTables "joueur" "facile" "chat".toList) sampleRequests =
        some sampleRound ∧
      sampleRound.TriedLetters.Nodup :=
  ⟨by decide,
    tried_letters_nodup asciiTables "joueur" "facile" "chat".toList sampleRequests sampleRound
      (by decide)⟩


/-! ## C10: the writes of `updateDisplayWord` stay in range -/

/-- C10: for a catalog word whose uppercased form has as many bytes as the word
itself, in every state reached from the state `indexHandler` builds, each call
of `updateDisplayWord` that `playHandler` (a new letter of `Word`) or
`hintHandler` (the rune it picks) makes returns without an index out of range,
and the reveal it returns has as many blank-separated slots as before; no
request makes a handler panic. -/
theorem reveal_writes_in_range (U : UnicodeTables) (username difficulty : String)
    (word : GoString) (requests : List Request) (game : Game)
    (hlen : byteLen (stringsToUpper U word) = byteLen word)
    (hrun : run U (indexHandler U username difficulty word) requests = some game) :
    (∀ raw, game.GameOver = false → byteLen (normalize U raw) = 1 →
      isLetter U (normalize U raw) = true →
      contains game.TriedLetters (normalize U raw) = false →
      stringsContains game.Word (normalize U raw) = true →
      ∃ display,
        updateDisplayWord game.Word game.DisplayWord (normalize U raw) = some display ∧
        (stringsSplit display ' ').length = (stringsSplit game.DisplayWord ' ').length) ∧
    (∀ c, game.GameOver = false → hintPick game = some c →
      ∃ display,
        updateDisplayWord game.Word game.DisplayWord [c] = some display ∧
        (stringsSplit display ' ').length = (stringsSplit game.DisplayWord ' ').length) ∧
    (∀ r, ∃ g, serve U game r = some g) := by
  have h : Inv (stringsToUpper U word) game :=
    inv_run requests (inv_indexHandler U username difficulty word hlen) hrun
  have hplay : ∀ raw, game.GameOver = false → byteLen (normalize U raw) = 1 →
      isLetter U (normalize U raw) = true →
      contains game.TriedLetters (normalize U raw) = false →
      ∃ display,
        updateDisplayWord game.Word game.DisplayWord (normalize U raw) = some display ∧
        (stringsSplit display ' ').length = (stringsSplit game.DisplayWord ' ').length := by
    intro raw hover h1 hl ht
    obtain ⟨c, hc, -⟩ := single_of_byteLen_one h1
    rw [hc] at hl ht ⊢
    exact h.reveal hover (isLetter_ne_space hl) ht
  have hhint : ∀ c, game.GameOver = false → hintPick game = some c →
      ∃ display,
        updateDisplayWord game.Word game.DisplayWord [c] = some display ∧
        (stringsSplit display ' ').length = (stringsSplit game.DisplayWord ' ').length := by
    intro c hover hp
    exact h.reveal hover (h.hint_pick hover hp).1 (hintPick_some hp).2.2
  refine ⟨fun raw hover h1 hl ht _ => hplay raw hover h1 hl ht, hhint, ?_⟩
  intro r
  cases hover : game.GameOver with
  | true =>
    cases r with
    | guess raw => exact ⟨_, playHandler_finished raw hover⟩
    | hint => exact ⟨_, hintHandler_finished hover⟩
  | false =>
    cases r with
    | guess raw =>
      rcases playHandler_cases U game raw hover with
        ⟨m, e⟩ | ⟨h1, hl, ht, _, e⟩ | ⟨_, _, _, _, e⟩ | e | e
      · exact ⟨_, e⟩
      · obtain ⟨d, hd, -⟩ := hplay raw hover h1 hl ht
        rw [hd, Option.map_some'] at e
        exact ⟨_, e⟩
      · exact ⟨_, e⟩
      · exact ⟨_, e⟩
      · exact ⟨_, e⟩
    | hint =>
      cases hp : hintPick game with
      | none => exact ⟨_, hintHandler_of_no_pick hover hp⟩
      | some c => exact ⟨_, (h.hint_pick hover hp).2⟩

/-- C10 on a round on "chat": the call for the guess "t", the call for a hint,
and the hint request. -/
theorem reveal_writes_in_range_witness :
    (∃ display,
      updateDisplayWord sampleRound.Word sampleRound.DisplayWord "T".toList = some display ∧
        (stringsSplit display ' ').length = 5) ∧
    (∃ display,
      updateDisplayWord sampleRound.Word sampleRound.DisplayWord "T".toList = some display ∧
        (stringsSplit display ' ').length = 5) ∧
    (∃ g, serve asciiTables sampleRound Request.hint = some g) :=
  ⟨(reveal_writes_in_range asciiTables "joueur" "facile" "chat".toList sampleRequests
      sampleRound (by decide) (by decide)).1 " t".toList (by decide) (by decide) (by decide)
      (by decide) (by decide),
   (reveal_writes_in_range asciiTables "joueur" "facile" "chat".toList sampleRequests
      sampleRound (by decide) (by decide)).2.1 'T' (by decide) (by decide),
   (reveal_writes_in_range asciiTables "joueur" "facile" "chat".toList sampleRequests
      sampleRound (by decide) (by decide)).2.2 Request.hint⟩


end Hangman
